import Mathlib

/-!
Verification of the day-10 "machine" solver (`src/day10/src/main.rs`):
a shallow embedding of the data model, the light-reachability search
(`light_up` / `light_up_step`), the joltage branch-and-bound search
(`best_joltage` / `search_joltage` / `select_buttons` / `next_combination`),
and the regex-driven parser (`Machine::from_input`), together with proofs
about them.  Machine integers (`usize`) are modelled as `Nat`; `usize::MAX`
appears explicitly where the source uses it as a sentinel or initial bound.
-/

namespace Day10

/-- `enum Error` of the solver. -/
inductive Error where
  | invalidInput : String → Error
  | noSolution : Error
deriving DecidableEq, Repr

/-- `enum EvalResult`, the result of `Machine::evaluate_joltage`. -/
inductive EvalResult where
  | incomplete : EvalResult
  | hit : EvalResult
  | invalid : EvalResult
deriving DecidableEq, Repr

/-- `type Button = Vec<usize>`: the list of positions a button affects. -/
abbrev Button := List Nat

/-- `struct Machine`. -/
structure Machine where
  lights : List Bool
  buttons : List Button
  joltage : List Nat
deriving DecidableEq, Repr

/-- `usize::MAX` on the 64-bit targets the program is built for. -/
def USIZE_MAX : Nat := 2 ^ 64 - 1

/-! ## Light-reachability solver -/

/-- `Machine::push_button_light`: toggle every position the button lists.
(Out-of-range indices, which would panic in Rust, leave the vector unchanged.) -/
def pushButtonLight (button : Button) (lights : List Bool) : List Bool :=
  button.foldl (fun ls p => ls.set p (!(ls.getD p false))) lights

mutual

/-- `Machine::light_up_step`.  The Rust guard is `step == max_steps`; it is
stated as `≤` so the recursion is well-founded on all arguments (the solver
only ever calls it with `step ≤ max_steps`, where the two guards agree). -/
def lightUpStep (m : Machine) (lights : List Bool) (step maxSteps : Nat) : Option Nat :=
  if h : maxSteps ≤ step then none
  else
    lightUpLoop m lights step maxSteps m.buttons maxSteps (Nat.le_refl _)
      (Nat.lt_of_not_le h) false
termination_by (maxSteps - step, 1, 0)

/-- The `for button in 0..self.buttons.len()` loop inside `light_up_step`,
threading the mutable `updated_max_steps` and `have_solution` state.  The two
proof arguments record the loop invariants `updated_max_steps ≤ max_steps` and
`step < max_steps` that make the recursion well-founded. -/
def lightUpLoop (m : Machine) (lights : List Bool) (step mx : Nat) :
    (bs : List Button) → (uMax : Nat) → uMax ≤ mx → step < mx → Bool → Option Nat
  | [], uMax, _, _, haveSol => if haveSol then some uMax else none
  | b :: rest, uMax, hu, hs, haveSol =>
    let check := pushButtonLight b lights
    if check = m.lights then some step
    else
      match lightUpStep m check (step + 1) uMax with
      | some v =>
        if hv : v < uMax then
          lightUpLoop m lights step mx rest v
            (Nat.le_of_lt (Nat.lt_of_lt_of_le hv hu)) hs true
        else
          lightUpLoop m lights step mx rest uMax hu hs true
      | none => lightUpLoop m lights step mx rest uMax hu hs haveSol
termination_by bs _ _ _ _ => (mx - step, 0, bs.length)

end

/-- `Machine::light_up`. -/
def lightUp (m : Machine) : Except Error Nat :=
  let startLights := List.replicate m.lights.length false
  if startLights = m.lights then .ok 0
  else
    match lightUpStep m startLights 1 m.lights.length with
    | some steps => .ok steps
    | none => .error .noSolution

/-! ## Joltage solver: basic operations -/

/-- Idealized (non-wrapping) model of `Machine::push_button_joltage`: add
`count` at every position the button lists (a position listed twice receives
`count` twice, as in the source).  The source computes in `usize`; the
faithful wrapping version is `pushButtonJoltage` below, and the two agree
while every sum stays below `2 ^ 64`. -/
def pushButtonJoltageU (joltage : List Nat) (button : Button) (count : Nat) : List Nat :=
  button.foldl (fun j p => j.set p (j.getD p 0 + count)) joltage

/-- The `for pos in 0..joltage_len` loop of `evaluate_joltage`, with the `hit`
counter and the early `Invalid` return. -/
def evalLoop (m : Machine) (cur : List Nat) : List Nat → Nat → EvalResult
  | [], hit => if hit = m.joltage.length then .hit else .incomplete
  | pos :: rest, hit =>
    let t := m.joltage.getD pos 0
    let c := cur.getD pos 0
    if t < c then .invalid
    else if t = c then evalLoop m cur rest (hit + 1)
    else evalLoop m cur rest hit

/-- `Machine::evaluate_joltage`. -/
def evaluateJoltage (m : Machine) (cur : List Nat) : EvalResult :=
  evalLoop m cur (List.range m.joltage.length) 0

/-- `Machine::button_is_valid`: no listed position is in `invalid_positions`. -/
def buttonIsValid (button : Button) (invalid : List Nat) : Bool :=
  button.all (fun p => !(invalid.contains p))

/-- The first loop of `select_buttons`: positions already satisfied
(`current >= target`) are invalid. -/
def invalidPositions (m : Machine) (cur : List Nat) : List Nat :=
  (List.range m.joltage.length).filter (fun pos => m.joltage.getD pos 0 ≤ cur.getD pos 0)

/-- The per-position count in the second loop of `select_buttons`: how many of
the remaining buttons touch `pos` and are still valid. -/
def numValidButtons (m : Machine) (bs : List Button) (cur : List Nat) (pos : Nat) : Nat :=
  (bs.filter (fun b => b.contains pos && buttonIsValid b (invalidPositions m cur))).length

/-- The fold of the second loop of `select_buttons`, tracking
`(least_num_buttons, least_position)` with `usize::MAX` sentinels. -/
def selectLoop (counts : Nat → Nat) : List Nat → Nat × Nat → Nat × Nat
  | [], st => st
  | pos :: rest, (ln, lp) =>
    if 0 < counts pos ∧ counts pos < ln then selectLoop counts rest (counts pos, pos)
    else selectLoop counts rest (ln, lp)

/-- `Machine::select_buttons`: pick the position touched by the fewest valid
buttons, split the buttons into those touching it and the rest, and return the
amount still needed there (`target - current`; the Rust `assert!(target > current)`
is proved below, see the safety theorem for claim C10). -/
def selectButtons (m : Machine) (bs : List Button) (cur : List Nat) :
    List Button × List Button × Nat :=
  let res := selectLoop (numValidButtons m bs cur) (List.range m.joltage.length)
    (USIZE_MAX, USIZE_MAX)
  let lp := res.2
  if lp = USIZE_MAX then ([], bs, 0)
  else
    let pr := bs.partition (fun b => b.contains lp)
    (pr.1, pr.2, m.joltage.getD lp 0 - cur.getD lp 0)

/-! ## The combination enumerator (`next_combination`) -/

/-- `combinations.iter().rposition(|&v| v != 0)`: index of the last nonzero. -/
def rposNonzero : List Nat → Option Nat
  | [] => none
  | a :: rest =>
    match rposNonzero rest with
    | some i => some (i + 1)
    | none => if a ≠ 0 then some 0 else none

/-- `Machine::next_combination`.  `none` covers both the `i == 0` stop and the
all-zero case (where the Rust `unwrap` would panic; unreachable, see C10). -/
def nextCombination (c : List Nat) : Option (List Nat) :=
  match rposNonzero c with
  | none => none
  | some i =>
    if i = 0 then none
    else
      let v := c.getD i 0
      some (((c.set (i - 1) (c.getD (i - 1) 0 + 1)).set i 0).set (c.length - 1) (v - 1))

/-- `rposNonzero` finds nothing exactly on an all-zero list. -/
theorem rposNonzero_eq_none_iff (c : List Nat) :
    rposNonzero c = none ↔ ∀ x ∈ c, x = 0 := by
  induction c with
  | nil => simp [rposNonzero]
  | cons a rest ih =>
    simp only [rposNonzero]
    cases h : rposNonzero rest with
    | some i =>
      constructor
      · intro hx; cases hx
      · intro hall
        have : rposNonzero rest = none :=
          ih.mpr fun x hx => hall x (List.mem_cons_of_mem _ hx)
        rw [this] at h; cases h
    | none =>
      have hrest : ∀ x ∈ rest, x = 0 := ih.mp h
      by_cases ha : a = 0
      · simp only [ha, ne_eq, not_true_eq_false, if_false]
        constructor
        · intro _ x hx
          rcases List.mem_cons.mp hx with h1 | h2
          · exact h1
          · exact hrest x h2
        · intro _; trivial
      · simp only [ne_eq, ha, not_false_eq_true, if_true]
        constructor
        · intro hx; cases hx
        · intro hall; exact absurd (hall a (List.mem_cons_self a rest)) ha

/-- If the last nonzero sits at index 0 the list is a nonzero head followed by
zeros. -/
theorem rposNonzero_zero (c : List Nat) (h : rposNonzero c = some 0) :
    ∃ v z, v ≠ 0 ∧ c = v :: List.replicate z 0 := by
  cases c with
  | nil => simp [rposNonzero] at h
  | cons a rest =>
    simp only [rposNonzero] at h
    cases hr : rposNonzero rest with
    | some i => rw [hr] at h; simp at h
    | none =>
      rw [hr] at h
      by_cases ha : a = 0
      · simp [ha] at h
      · refine ⟨a, rest.length, ha, ?_⟩
        have hall : ∀ x ∈ rest, x = 0 := (rposNonzero_eq_none_iff rest).1 hr
        rw [← List.eq_replicate_of_mem hall]

/-- `rposNonzero` on a cons shifts by one when it finds something in the tail. -/
theorem rposNonzero_cons_of_some (a : Nat) (rest : List Nat) (i : Nat)
    (h : rposNonzero rest = some i) : rposNonzero (a :: rest) = some (i + 1) := by
  simp [rposNonzero, h]

/-- Setting the last entry of an all-zero list. -/
theorem set_last_replicate (n w : Nat) :
    (List.replicate (n + 1) 0).set n w = List.replicate n 0 ++ [w] := by
  induction n with
  | zero => rfl
  | succ k ih =>
    show 0 :: (List.replicate (k + 1) 0).set k w = 0 :: (List.replicate k 0 ++ [w])
    rw [ih]

/-- Explicit value of `nextCombination` on the canonical shape
`x :: v :: 0…0` with `v ≠ 0` (last nonzero at index 1). -/
theorem nextCombination_base (x v z : Nat) (hv : v ≠ 0) :
    nextCombination (x :: v :: List.replicate z 0) =
      some ((x + 1) :: (List.replicate z 0 ++ [v - 1])) := by
  have hrest : rposNonzero (v :: List.replicate z 0) = some 0 := by
    have hz : rposNonzero (List.replicate z 0) = none := by
      rw [rposNonzero_eq_none_iff]; intro x hx
      exact List.eq_of_mem_replicate hx
    simp only [rposNonzero]
    rw [hz]
    simp [hv]
  have hc : rposNonzero (x :: v :: List.replicate z 0) = some 1 :=
    rposNonzero_cons_of_some _ _ _ hrest
  have hlen : (x :: v :: List.replicate z 0).length - 1 = z + 1 := by simp
  simp only [nextCombination, hc, if_neg (Nat.one_ne_zero), hlen]
  have e1 : (x :: v :: List.replicate z 0).set (1 - 1)
      ((x :: v :: List.replicate z 0).getD (1 - 1) 0 + 1)
      = (x + 1) :: v :: List.replicate z 0 := rfl
  rw [e1]
  have e2 : ((x + 1) :: v :: List.replicate z 0).set 1 0
      = (x + 1) :: 0 :: List.replicate z 0 := rfl
  rw [e2]
  have e3 : ((x + 1) :: 0 :: List.replicate z 0).set (z + 1)
      ((x :: v :: List.replicate z 0).getD 1 0 - 1)
      = (x + 1) :: (List.replicate (z + 1) 0).set z (v - 1) := rfl
  rw [e3, set_last_replicate]

/-- `nextCombination` commutes with cons when the last nonzero of the tail is
not at its head. -/
theorem nextCombination_cons (a : Nat) (rest : List Nat) (i : Nat)
    (h : rposNonzero rest = some i) (hi : 1 ≤ i) :
    nextCombination (a :: rest) = (nextCombination rest).map (a :: ·) := by
  have hc : rposNonzero (a :: rest) = some (i + 1) := rposNonzero_cons_of_some _ _ _ h
  have hrl : rest ≠ [] := by rintro rfl; simp [rposNonzero] at h
  have hlen : 1 ≤ rest.length := by
    cases rest with
    | nil => exact absurd rfl hrl
    | cons c cs => simp
  simp only [nextCombination, hc, h]
  have h1 : i + 1 ≠ 0 := by omega
  have h2 : i ≠ 0 := by omega
  simp only [h1, if_false, h2, if_false, Option.map_some]
  have e1 : (a :: rest).getD (i + 1) 0 = rest.getD i 0 := rfl
  have e2 : (a :: rest).set (i + 1 - 1) ((a :: rest).getD (i + 1 - 1) 0 + 1)
      = a :: rest.set (i - 1) (rest.getD (i - 1) 0 + 1) := by
    obtain ⟨j, rfl⟩ : ∃ j, i = j + 1 := ⟨i - 1, by omega⟩
    rfl
  have e3 : (a :: rest).length - 1 = rest.length - 1 + 1 := by
    simp; omega
  rw [e1, e2, e3]
  rfl

/-- Canonical shape of one `next_combination` step: the input splits as
`pre ++ [a, v, 0, …, 0]` with `v` its last nonzero entry sitting behind index 0,
and the output is `pre ++ [a+1, 0, …, 0, v-1]`. -/
theorem nextCombination_shape (c c' : List Nat) (h : nextCombination c = some c') :
    ∃ pre a v z, v ≠ 0 ∧ c = pre ++ a :: v :: List.replicate z 0 ∧
      c' = pre ++ (a + 1) :: (List.replicate z 0 ++ [v - 1]) := by
  induction c generalizing c' with
  | nil => simp [nextCombination, rposNonzero] at h
  | cons x rest ih =>
    cases hr : rposNonzero rest with
    | none =>
      exfalso
      by_cases hx : x = 0
      · have hnone : rposNonzero (x :: rest) = none := by
          simp only [rposNonzero]; rw [hr]; simp [hx]
        simp [nextCombination, hnone] at h
      · have hsome : rposNonzero (x :: rest) = some 0 := by
          simp only [rposNonzero]; rw [hr]; simp [hx]
        simp [nextCombination, hsome] at h
    | some i =>
      match i, hr with
      | 0, hr =>
        obtain ⟨v, z, hv, hrest⟩ := rposNonzero_zero rest hr
        subst hrest
        rw [nextCombination_base x v z hv] at h
        refine ⟨[], x, v, z, hv, by simp, ?_⟩
        simpa using h.symm
      | i + 1, hr =>
        rw [nextCombination_cons x rest (i + 1) hr (by omega)] at h
        cases hnr : nextCombination rest with
        | none => rw [hnr] at h; cases h
        | some r' =>
          rw [hnr] at h
          obtain ⟨pre, a, v, z, hv, h1, h2⟩ := ih r' hnr
          refine ⟨x :: pre, a, v, z, hv, by simp [h1], ?_⟩
          have : c' = x :: r' := by simpa using h.symm
          rw [this, h2]; rfl

/-- `next_combination` preserves the length of the vector. -/
theorem nextCombination_length (c c' : List Nat) (h : nextCombination c = some c') :
    c'.length = c.length := by
  obtain ⟨pre, a, v, z, _, h1, h2⟩ := nextCombination_shape c c' h
  subst h1; subst h2; simp

/-- `next_combination` preserves the sum of the vector. -/
theorem nextCombination_sum (c c' : List Nat) (h : nextCombination c = some c') :
    c'.sum = c.sum := by
  obtain ⟨pre, a, v, z, hv, h1, h2⟩ := nextCombination_shape c c' h
  subst h1; subst h2
  simp [List.sum_append, List.sum_replicate]
  omega

/-- The base-`B` value of a combination vector, most significant digit first;
the strictly increasing measure behind the `next_combination` loop. -/
def digitsVal (B : Nat) (c : List Nat) : Nat :=
  c.foldl (fun acc d => acc * B + d) 0

theorem digitsVal_foldl (B s : Nat) (l : List Nat) :
    l.foldl (fun acc d => acc * B + d) s = s * B ^ l.length + digitsVal B l := by
  induction l generalizing s with
  | nil => simp [digitsVal]
  | cons x t ih =>
    show List.foldl _ (s * B + x) t = _
    rw [ih]
    have hx : digitsVal B (x :: t) = x * B ^ t.length + digitsVal B t := by
      show List.foldl _ (0 * B + x) t = _
      rw [ih]; ring_nf
    rw [hx]
    simp [List.length_cons, pow_succ]
    ring

theorem digitsVal_cons (B x : Nat) (t : List Nat) :
    digitsVal B (x :: t) = x * B ^ t.length + digitsVal B t := by
  show List.foldl _ (0 * B + x) t = _
  rw [digitsVal_foldl]; ring_nf

theorem digitsVal_append (B : Nat) (l1 l2 : List Nat) :
    digitsVal B (l1 ++ l2) = digitsVal B l1 * B ^ l2.length + digitsVal B l2 := by
  induction l1 with
  | nil => simp [digitsVal]
  | cons x t ih =>
    rw [List.cons_append, digitsVal_cons, ih, digitsVal_cons]
    simp [List.length_append, pow_add]
    ring

theorem digitsVal_replicate_zero (B z : Nat) : digitsVal B (List.replicate z 0) = 0 := by
  induction z with
  | zero => rfl
  | succ n ih => rw [List.replicate_succ, digitsVal_cons, ih]; simp

/-- A vector whose sum is below the base has value below `B ^ length`. -/
theorem digitsVal_lt_pow (B : Nat) (l : List Nat) (h : l.sum < B) :
    digitsVal B l < B ^ l.length := by
  induction l with
  | nil => simpa [digitsVal] using Nat.one_pos
  | cons x t ih =>
    rw [digitsVal_cons]
    have hx : x + 1 ≤ B := by simp [List.sum_cons] at h; omega
    have ht : t.sum < B := by simp [List.sum_cons] at h; omega
    have h1 : digitsVal B t < B ^ t.length := ih ht
    calc x * B ^ t.length + digitsVal B t
        < x * B ^ t.length + B ^ t.length := by omega
      _ = (x + 1) * B ^ t.length := by ring
      _ ≤ B * B ^ t.length := Nat.mul_le_mul_right _ hx
      _ = B ^ (x :: t).length := by rw [List.length_cons, pow_succ]; ring

/-- One `next_combination` step strictly increases the base-`B` value. -/
theorem nextCombination_digitsVal (c c' : List Nat) (h : nextCombination c = some c')
    (B : Nat) (hB : c.sum < B) : digitsVal B c < digitsVal B c' := by
  obtain ⟨pre, a, v, z, hv, h1, h2⟩ := nextCombination_shape c c' h
  subst h1; subst h2
  have hvB : v < B := by
    have : v ≤ (pre ++ a :: v :: List.replicate z 0).sum := by
      simp [List.sum_append, List.sum_replicate]
      omega
    omega
  have hv2 : digitsVal B (a :: v :: List.replicate z 0)
      < digitsVal B ((a + 1) :: (List.replicate z 0 ++ [v - 1])) := by
    have e1 : digitsVal B (a :: v :: List.replicate z 0)
        = a * B ^ (z + 1) + v * B ^ z := by
      rw [digitsVal_cons, digitsVal_cons, digitsVal_replicate_zero]
      simp
    have e2 : digitsVal B ((a + 1) :: (List.replicate z 0 ++ [v - 1]))
        = a * B ^ (z + 1) + (B ^ (z + 1) + (v - 1)) := by
      rw [digitsVal_cons, digitsVal_append, digitsVal_replicate_zero]
      have : digitsVal B [v - 1] = v - 1 := by simp [digitsVal]
      rw [this]
      simp
      ring
    rw [e1, e2]
    have hpos : 0 < B ^ z := Nat.pos_pow_of_pos z (by omega)
    have hstep : v * B ^ z < B ^ (z + 1) := by
      calc v * B ^ z < B * B ^ z := Nat.mul_lt_mul_of_lt_of_le hvB (Nat.le_refl _) hpos
        _ = B ^ (z + 1) := by rw [pow_succ]; ring
    exact Nat.add_lt_add_left (lt_of_lt_of_le hstep (Nat.le_add_right _ _)) _
  rw [digitsVal_append, digitsVal_append]
  have hlen : ((a + 1) :: (List.replicate z 0 ++ [v - 1])).length
      = (a :: v :: List.replicate z 0).length := by simp
  rw [hlen]
  exact Nat.add_lt_add_left hv2 _

/-- The sequence of values `index_combination` takes in the `loop` of
`search_joltage`'s multi-button case: the start vector followed by the
iterates of `next_combination`, up to and including the vector on which
`next_combination` returns `false`. -/
def comboSeq (c : List Nat) : List (List Nat) :=
  match h : nextCombination c with
  | none => [c]
  | some c' => c :: comboSeq c'
termination_by (c.sum + 1) ^ c.length - digitsVal (c.sum + 1) c
decreasing_by
  have hlen := nextCombination_length c c' h
  have hsum := nextCombination_sum c c' h
  have hlt := nextCombination_digitsVal c c' h (c.sum + 1) (Nat.lt_succ_self _)
  have hbound : digitsVal (c'.sum + 1) c' < (c'.sum + 1) ^ c'.length :=
    digitsVal_lt_pow _ _ (Nat.lt_succ_self _)
  rw [hsum, hlen] at hbound ⊢
  omega

/-- The `for (index, pushes) in index_combination.iter().enumerate()` loop in
the idealized non-wrapping model. -/
def applyCountsU (cur : List Nat) : List Button → List Nat → List Nat
  | b :: bs, c :: cs => applyCountsU (pushButtonJoltageU cur b c) bs cs
  | _, _ => cur

/-- The `loop { … }` of `search_joltage`'s multi-button case, folded over the
vectors `comboSeq` enumerates, in the idealized non-wrapping model.  `recur`
is the recursive call `search_joltage(updated, remaining,
presses + max_presses, least)`; the fold state is `(best, least_presses)`. -/
def comboFoldU (m : Machine) (sel : List Button) (cur : List Nat) (p mp : Nat)
    (recur : List Nat → Nat → Option Nat × Nat) :
    List (List Nat) → Option Nat × Nat → Option Nat × Nat
  | [], st => st
  | d :: L, (best, least) =>
    let updated := applyCountsU cur sel d
    match evaluateJoltage m updated with
    | .hit =>
      let did := p + mp
      match best with
      | none => comboFoldU m sel cur p mp recur L (some did, if did < least then did else least)
      | some b =>
        if did < b then
          comboFoldU m sel cur p mp recur L (some did, if did < least then did else least)
        else comboFoldU m sel cur p mp recur L (some b, least)
    | .incomplete =>
      match recur updated least with
      | (none, least') => comboFoldU m sel cur p mp recur L (best, least')
      | (some rv, least') =>
        match best with
        | none =>
          comboFoldU m sel cur p mp recur L (some rv, if rv < least' then rv else least')
        | some b =>
          if rv < b then
            comboFoldU m sel cur p mp recur L (some rv, if rv < least' then rv else least')
          else comboFoldU m sel cur p mp recur L (some b, least')
    | .invalid => comboFoldU m sel cur p mp recur L (best, least)

theorem length_filter_add_length_filter_not (p : Button → Bool) (l : List Button) :
    (l.filter p).length + (l.filter (fun b => !(p b))).length = l.length := by
  induction l with
  | nil => rfl
  | cons a t ih =>
    by_cases h : p a <;> simp [List.filter_cons, h] <;> omega

/-- `select_buttons` splits the given buttons into the selected and remaining
ones; in particular the remaining list is strictly shorter whenever some
buttons were selected (the termination measure of `search_joltage`). -/
theorem selectButtons_lengths (m : Machine) (bs : List Button) (cur : List Nat) :
    (selectButtons m bs cur).1.length + (selectButtons m bs cur).2.1.length = bs.length := by
  unfold selectButtons
  by_cases h : (selectLoop (numValidButtons m bs cur) (List.range m.joltage.length)
      (USIZE_MAX, USIZE_MAX)).2 = USIZE_MAX
  · simp [h]
  · simp only [h, if_false, List.partition_eq_filter_filter]
    exact length_filter_add_length_filter_not _ bs

/-- Idealized model of `Machine::search_joltage` with unbounded press
arithmetic; the mutable `least_presses` is threaded as state and the result
is `(return value, final least_presses)`.  The correctness of the search is
established against this model first; the source-faithful `usize` version
`searchJoltage` below agrees with it on machines whose numbers are small
enough for no wrap to occur (`searchJoltage_eq_U`). -/
def searchJoltageU (m : Machine) (cur : List Nat) (buttons : List Button)
    (presses least : Nat) : Option Nat × Nat :=
  match hsel : selectButtons m buttons cur with
  | (sel, rem, maxPresses) =>
    if least < presses + maxPresses then (none, least)
    else
      match hs : sel with
      | [] =>
        match evaluateJoltage m cur with
        | .hit => (some presses, least)
        | .incomplete => (none, least)
        | .invalid => (none, least)
      | [b] =>
        searchJoltageU m (pushButtonJoltageU cur b maxPresses) rem (presses + maxPresses) least
      | _ :: _ :: _ =>
        comboFoldU m sel cur presses maxPresses
          (fun cur' least' => searchJoltageU m cur' rem (presses + maxPresses) least')
          (comboSeq (List.replicate (sel.length - 1) 0 ++ [maxPresses])) (none, least)
termination_by buttons.length
decreasing_by
  · have hlen := selectButtons_lengths m buttons cur
    rw [hsel] at hlen
    simp only [hs] at hlen
    simp at hlen
    omega
  · have hlen := selectButtons_lengths m buttons cur
    rw [hsel] at hlen
    simp only [hs] at hlen
    simp at hlen
    omega

/-- `Machine::best_joltage` over the idealized search. -/
def bestJoltageU (m : Machine) : Except Error Nat :=
  match (searchJoltageU m (List.replicate m.joltage.length 0) m.buttons 0 USIZE_MAX).1 with
  | some value => .ok value
  | none => .error .noSolution

/-! ## The source-faithful `usize` search

The Rust program computes `presses + max_presses`, `joltage[*pos] += count`
and the parts' running sums in `usize`, which wraps around `2 ^ 64` in
release builds.  The definitions below model exactly that; the bridge
theorem `searchJoltage_eq_U` shows they coincide with the idealized
definitions above whenever every intermediate value stays below `2 ^ 64`. -/

/-- `Machine::push_button_joltage`: `joltage[*pos] += count` in `usize`
arithmetic (wrapping around `2 ^ 64`; a position listed twice receives
`count` twice, as in the source). -/
def pushButtonJoltage (joltage : List Nat) (button : Button) (count : Nat) : List Nat :=
  button.foldl (fun j p => j.set p ((j.getD p 0 + count) % 2 ^ 64)) joltage

/-- The `for (index, pushes) in index_combination.iter().enumerate()` loop:
apply each button the stated number of times, in order, with `usize` adds. -/
def applyCounts (cur : List Nat) : List Button → List Nat → List Nat
  | b :: bs, c :: cs => applyCounts (pushButtonJoltage cur b c) bs cs
  | _, _ => cur

/-- The `loop { … }` of `search_joltage`'s multi-button case over the vectors
`comboSeq` enumerates; `did_press = presses + max_presses` wraps in `usize`.
`recur` is the recursive call (which already receives the wrapped sum). -/
def comboFold (m : Machine) (sel : List Button) (cur : List Nat) (p mp : Nat)
    (recur : List Nat → Nat → Option Nat × Nat) :
    List (List Nat) → Option Nat × Nat → Option Nat × Nat
  | [], st => st
  | d :: L, (best, least) =>
    let updated := applyCounts cur sel d
    match evaluateJoltage m updated with
    | .hit =>
      let did := (p + mp) % 2 ^ 64
      match best with
      | none => comboFold m sel cur p mp recur L (some did, if did < least then did else least)
      | some b =>
        if did < b then
          comboFold m sel cur p mp recur L (some did, if did < least then did else least)
        else comboFold m sel cur p mp recur L (some b, least)
    | .incomplete =>
      match recur updated least with
      | (none, least') => comboFold m sel cur p mp recur L (best, least')
      | (some rv, least') =>
        match best with
        | none =>
          comboFold m sel cur p mp recur L (some rv, if rv < least' then rv else least')
        | some b =>
          if rv < b then
            comboFold m sel cur p mp recur L (some rv, if rv < least' then rv else least')
          else comboFold m sel cur p mp recur L (some b, least')
    | .invalid => comboFold m sel cur p mp recur L (best, least)

/-- `Machine::search_joltage` with the source's `usize` arithmetic:
`presses + max_presses` wraps around `2 ^ 64` in the prune test, in the
press counter handed to recursive calls and in `did_press`. -/
def searchJoltage (m : Machine) (cur : List Nat) (buttons : List Button)
    (presses least : Nat) : Option Nat × Nat :=
  match hsel : selectButtons m buttons cur with
  | (sel, rem, maxPresses) =>
    if least < (presses + maxPresses) % 2 ^ 64 then (none, least)
    else
      match hs : sel with
      | [] =>
        match evaluateJoltage m cur with
        | .hit => (some presses, least)
        | .incomplete => (none, least)
        | .invalid => (none, least)
      | [b] =>
        searchJoltage m (pushButtonJoltage cur b maxPresses) rem
          ((presses + maxPresses) % 2 ^ 64) least
      | _ :: _ :: _ =>
        comboFold m sel cur presses maxPresses
          (fun cur' least' => searchJoltage m cur' rem ((presses + maxPresses) % 2 ^ 64) least')
          (comboSeq (List.replicate (sel.length - 1) 0 ++ [maxPresses])) (none, least)
termination_by buttons.length
decreasing_by
  · have hlen := selectButtons_lengths m buttons cur
    rw [hsel] at hlen
    simp only [hs] at hlen
    simp at hlen
    omega
  · have hlen := selectButtons_lengths m buttons cur
    rw [hsel] at hlen
    simp only [hs] at hlen
    simp at hlen
    omega

/-- `Machine::best_joltage`. -/
def bestJoltage (m : Machine) : Except Error Nat :=
  match (searchJoltage m (List.replicate m.joltage.length 0) m.buttons 0 USIZE_MAX).1 with
  | some value => .ok value
  | none => .error .noSolution

/-! ## The parser (`Machine::from_input`)

The Rust code matches the regex `\[([.#]*)\]\s+([()0-9, ]+)\s+\{([0-9,]+)}`
with `captures_iter` (leftmost match, greedy quantifiers, scanning resumes
after each match).  The pattern is compiled by hand: between `]` and `{` the
text must decompose as `\s+  group  \s+` where the group's character class
also contains the space, so that boundary needs explicit backtracking
(longest leading whitespace run first, then longest group). -/

/-- The `[.#]` class of the lights group. -/
def isLightChar (c : Char) : Bool := c = '.' || c = '#'

/-- The `[()0-9, ]` class of the buttons group. -/
def isBtnChar (c : Char) : Bool :=
  c = '(' || c = ')' || c = ',' || c = ' ' || c.isDigit

/-- The `[0-9,]` class of the joltage group. -/
def isJoltChar (c : Char) : Bool := c.isDigit || c = ','

/-- The `\s` class.  The regex crate compiles `\s` in its default Unicode
mode, where it is `\p{White_Space}`: U+0009..U+000D, U+0020, U+0085, U+00A0,
U+1680, U+2000..U+200A, U+2028, U+2029, U+202F, U+205F and U+3000. -/
def isWsChar (c : Char) : Bool :=
  c = ' ' || c = '\t' || c = '\n' || c = '\r' || c = '\x0b' || c = '\x0c' ||
  c = Char.ofNat 133 || c = Char.ofNat 160 || c = Char.ofNat 5760 ||
  (8192 ≤ c.toNat && c.toNat ≤ 8202) ||
  c = Char.ofNat 8232 || c = Char.ofNat 8233 || c = Char.ofNat 8239 ||
  c = Char.ofNat 8287 || c = Char.ofNat 12288

/-- Backtracking for the buttons group: with the leading whitespace length
fixed, try group lengths from `g` down to 1; the rest of the segment must be
a nonempty whitespace run (the second `\s+`, which must reach the `{`). -/
def wgwTryG (rest : List Char) : Nat → Option (List Char)
  | 0 => none
  | g + 1 =>
    let tail := rest.drop (g + 1)
    if tail ≠ [] ∧ tail.all isWsChar then some (rest.take (g + 1))
    else wgwTryG rest g

/-- Backtracking for the segment between `]` and `{`: try leading-whitespace
lengths from `a` down to 1 (greedy `\s+` first, as backtracking would). -/
def wgwTryA (seg : List Char) : Nat → Option (List Char)
  | 0 => none
  | a + 1 =>
    let rest := seg.drop (a + 1)
    match wgwTryG rest (rest.takeWhile isBtnChar).length with
    | some g => some g
    | none => wgwTryA seg a

/-- Decompose the segment between `]` and `{` as `\s+ ([()0-9, ]+) \s+`,
returning the captured buttons group. -/
def wgwSplit (seg : List Char) : Option (List Char) :=
  wgwTryA seg (seg.takeWhile isWsChar).length

/-- Demand that the text starts with the literal character `c`. -/
def expectChar (c : Char) : List Char → Option (List Char)
  | d :: r => if d = c then some r else none
  | [] => none

/-- Match the regex tail after an opening `[`: `([.#]*)\]\s+([()0-9, ]+)\s+\{([0-9,]+)}`.
Returns the three captured groups and the unconsumed suffix. -/
def matchAfterBracket (t : List Char) :
    Option ((List Char × List Char × List Char) × List Char) :=
  let g1 := t.takeWhile isLightChar
  match expectChar ']' (t.dropWhile isLightChar) with
  | none => none
  | some r2 =>
    let seg := r2.takeWhile (fun c => isWsChar c || isBtnChar c)
    match expectChar '{' (r2.dropWhile (fun c => isWsChar c || isBtnChar c)) with
    | none => none
    | some r4 =>
      match wgwSplit seg with
      | none => none
      | some g2 =>
        let g3 := r4.takeWhile isJoltChar
        match expectChar '}' (r4.dropWhile isJoltChar) with
        | none => none
        | some r6 => if g3 = [] then none else some ((g1, g2, g3), r6)

theorem length_dropWhile_le (p : Char → Bool) (l : List Char) :
    (l.dropWhile p).length ≤ l.length := by
  induction l with
  | nil => simp
  | cons a t ih =>
    by_cases h : p a <;> simp [List.dropWhile_cons, h] <;> omega

/-- `expectChar` consumes exactly one character. -/
theorem expectChar_length (c : Char) (l r : List Char) (h : expectChar c l = some r) :
    r.length + 1 = l.length := by
  cases l with
  | nil => cases h
  | cons d t =>
    unfold expectChar at h
    by_cases hd : d = c
    · simp [hd] at h; rw [← h]; rfl
    · simp [hd] at h

/-- What `matchAfterBracket` leaves over is no longer than its input. -/
theorem matchAfterBracket_rest_le (t : List Char) (g : List Char × List Char × List Char)
    (rest : List Char) (h : matchAfterBracket t = some (g, rest)) :
    rest.length ≤ t.length := by
  unfold matchAfterBracket at h
  cases h1 : expectChar ']' (t.dropWhile isLightChar) with
  | none => rw [h1] at h; cases h
  | some r2 =>
    rw [h1] at h
    dsimp only at h
    cases h2 : expectChar '{' (r2.dropWhile (fun c => isWsChar c || isBtnChar c)) with
    | none => rw [h2] at h; cases h
    | some r4 =>
      rw [h2] at h
      dsimp only at h
      cases h3 : wgwSplit (r2.takeWhile (fun c => isWsChar c || isBtnChar c)) with
      | none => rw [h3] at h; cases h
      | some g2 =>
        rw [h3] at h
        dsimp only at h
        cases h4 : expectChar '}' (r4.dropWhile isJoltChar) with
        | none => rw [h4] at h; cases h
        | some r6 =>
          rw [h4] at h
          dsimp only at h
          by_cases h5 : r4.takeWhile isJoltChar = []
          · simp [h5] at h
          · simp only [h5, if_false, Option.some.injEq, Prod.mk.injEq] at h
            have e1 := expectChar_length _ _ _ h1
            have e2 := expectChar_length _ _ _ h2
            have e3 := expectChar_length _ _ _ h4
            have l1 := length_dropWhile_le isLightChar t
            have l2 := length_dropWhile_le (fun c => isWsChar c || isBtnChar c) r2
            have l3 := length_dropWhile_le isJoltChar r4
            rw [← h.2]
            omega

/-- `captures_iter`: scan left to right, emit each match's line (the full
matched text, used in `InvalidInput` payloads) and groups, resuming after the
match; positions that start no match are skipped. -/
def scanMatches : List Char → List (List Char × (List Char × List Char × List Char))
  | [] => []
  | c :: cs =>
    if c = '[' then
      match hm : matchAfterBracket cs with
      | some (gs, rest) =>
        ('[' :: cs.take (cs.length - rest.length), gs) :: scanMatches rest
      | none => scanMatches cs
    else scanMatches cs
termination_by l => l.length
decreasing_by
  · have := matchAfterBracket_rest_le cs gs rest hm
    simp
    omega
  · simp
  · simp

/-- `str::parse::<usize>` on the token alphabets that can occur here:
a nonempty all-digit string whose value fits in `usize`. -/
def parseUsize (s : List Char) : Option Nat :=
  if s = [] then none
  else if s.all (·.isDigit) then
    let v := s.foldl (fun a c => a * 10 + (c.toNat - '0'.toNat)) 0
    if v ≤ USIZE_MAX then some v else none
  else none

/-- `str::split(sep)`: split on every occurrence, keeping empty pieces. -/
def splitOnChar (sep : Char) : List Char → List (List Char)
  | [] => [[]]
  | c :: cs =>
    if c = sep then [] :: splitOnChar sep cs
    else
      match splitOnChar sep cs with
      | t :: ts => (c :: t) :: ts
      | [] => [[c]]

/-- Parse the joltage group: comma-separated `usize`s, any failure aborting
with `InvalidInput(line)`. -/
def parseJoltage (line : List Char) (g3 : List Char) : Except Error (List Nat) :=
  (splitOnChar ',' g3).mapM fun tok =>
    match parseUsize tok with
    | some v => .ok v
    | none => .error (.invalidInput (String.mk line))

/-- Parse the buttons group: space-separated tokens; each token must have
length ≥ 2 and its interior must be comma-separated `usize`s. -/
def parseButtons (line : List Char) (g2 : List Char) : Except Error (List Button) :=
  (splitOnChar ' ' g2).mapM fun tok =>
    if 2 ≤ tok.length then
      (splitOnChar ',' (tok.drop 1).dropLast).mapM fun s =>
        match parseUsize s with
        | some v => Except.ok v
        | none => Except.error (Error.invalidInput (String.mk line))
    else Except.error (Error.invalidInput (String.mk line))

/-- Parse one matched block into a `Machine` (joltage first, then buttons,
as in the source). -/
def parseEntry (e : List Char × (List Char × List Char × List Char)) :
    Except Error Machine :=
  match e with
  | (line, (rawLights, rawButtons, rawJoltages)) => do
    let lights : List Bool := rawLights.map (fun c => c = '#')
    let joltage ← parseJoltage line rawJoltages
    let buttons ← parseButtons line rawButtons
    pure { lights := lights, buttons := buttons, joltage := joltage }

/-- `Machine::from_input`. -/
def fromInput (input : String) : Except Error (List Machine) :=
  (scanMatches input.data).mapM parseEntry

/-- Total amount added at `pos` when each button in `bs` is pressed the
corresponding number of times in `cs` (a press of a button adds 1 at `pos`
for each occurrence of `pos` in the button's index list, matching
`push_button_joltage`). -/
def addVec : List Button → List Nat → Nat → Nat
  | b :: bs, c :: cs, pos => c * b.count pos + addVec bs cs pos
  | _, _, _ => 0

/-- `cs` is an exact solution for target machine `m` from accumulator `cur`
using the buttons `bs`. -/
def IsSol (m : Machine) (cur : List Nat) (bs : List Button) (cs : List Nat) : Prop :=
  cs.length = bs.length ∧
    ∀ pos < m.joltage.length, cur.getD pos 0 + addVec bs cs pos = m.joltage.getD pos 0

/-- The set of total press counts of exact solutions from `cur` using `bs`. -/
def extTotals (m : Machine) (cur : List Nat) (bs : List Button) : Set Nat :=
  {t | ∃ cs, IsSol m cur bs cs ∧ cs.sum = t}

/-- Modelled on the claims' wording: each press of a button adds exactly 1 to
every position the button affects (set semantics, ignoring duplicate indices).
Used to compare the specification's reading with the code's behaviour. -/
def specAddVec : List Button → List Nat → Nat → Nat
  | b :: bs, c :: cs, pos =>
    (if pos ∈ b then c else 0) + specAddVec bs cs pos
  | _, _, _ => 0

/-- Solution in the claims' (set-semantics) sense, from the zero vector. -/
def SpecIsSol (m : Machine) (cs : List Nat) : Prop :=
  cs.length = m.buttons.length ∧
    ∀ pos < m.joltage.length, specAddVec m.buttons cs pos = m.joltage.getD pos 0

instance (m : Machine) (cs : List Nat) : Decidable (SpecIsSol m cs) := by
  unfold SpecIsSol; infer_instance

theorem pushButtonJoltageU_length (j : List Nat) (b : Button) (c : Nat) :
    (pushButtonJoltageU j b c).length = j.length := by
  induction b generalizing j with
  | nil => rfl
  | cons p ps ih =>
    show (pushButtonJoltageU (j.set p (j.getD p 0 + c)) ps c).length = _
    rw [ih, List.length_set]

theorem pushButtonJoltageU_getD (j : List Nat) (b : Button) (c : Nat) (pos : Nat)
    (hpos : pos < j.length) :
    (pushButtonJoltageU j b c).getD pos 0 = j.getD pos 0 + c * b.count pos := by
  induction b generalizing j with
  | nil => simp [pushButtonJoltageU, List.count_nil]
  | cons p ps ih =>
    show (pushButtonJoltageU (j.set p (j.getD p 0 + c)) ps c).getD pos 0 = _
    rw [ih _ (by rw [List.length_set]; exact hpos)]
    rw [List.count_cons]
    by_cases hp : p = pos
    · subst hp
      have h1 : (j.set p (j.getD p 0 + c)).getD p 0 = j.getD p 0 + c := by
        rw [List.getD_eq_getElem?_getD, List.getElem?_set_self hpos,
          Option.getD_some]
      rw [h1]
      simp
      ring
    · have h1 : (j.set p (j.getD p 0 + c)).getD pos 0 = j.getD pos 0 := by
        rw [List.getD_eq_getElem?_getD, List.getElem?_set_ne hp,
          ← List.getD_eq_getElem?_getD]
      rw [h1]
      have : (p == pos) = false := by simp [hp]
      simp [this]

theorem applyCountsU_length (cur : List Nat) (bs : List Button) (cs : List Nat) :
    (applyCountsU cur bs cs).length = cur.length := by
  induction bs generalizing cur cs with
  | nil => cases cs <;> rfl
  | cons b bs ih =>
    cases cs with
    | nil => rfl
    | cons c cs =>
      show (applyCountsU (pushButtonJoltageU cur b c) bs cs).length = _
      rw [ih, pushButtonJoltageU_length]

theorem applyCountsU_getD (cur : List Nat) (bs : List Button) (cs : List Nat)
    (pos : Nat) (hpos : pos < cur.length) :
    (applyCountsU cur bs cs).getD pos 0 = cur.getD pos 0 + addVec bs cs pos := by
  induction bs generalizing cur cs with
  | nil => cases cs <;> simp [applyCountsU, addVec]
  | cons b bs ih =>
    cases cs with
    | nil => simp [applyCountsU, addVec]
    | cons c cs =>
      show (applyCountsU (pushButtonJoltageU cur b c) bs cs).getD pos 0 = _
      rw [ih _ _ (by rw [pushButtonJoltageU_length]; exact hpos),
        pushButtonJoltageU_getD _ _ _ _ hpos]
      show cur.getD pos 0 + c * b.count pos + addVec bs cs pos
          = cur.getD pos 0 + (c * b.count pos + addVec bs cs pos)
      ring

theorem addVec_replicate_zero (bs : List Button) (pos : Nat) :
    addVec bs (List.replicate bs.length 0) pos = 0 := by
  induction bs with
  | nil => rfl
  | cons b bs ih =>
    show 0 * b.count pos + addVec bs (List.replicate bs.length 0) pos = 0
    rw [ih]; ring

/-! ## `evaluate_joltage` characterisations -/

theorem evalLoop_invalid_iff (m : Machine) (cur : List Nat) (l : List Nat) (hit : Nat) :
    evalLoop m cur l hit = .invalid ↔
      ∃ pos ∈ l, m.joltage.getD pos 0 < cur.getD pos 0 := by
  induction l generalizing hit with
  | nil =>
    simp only [evalLoop, List.not_mem_nil]
    constructor
    · intro h
      by_cases hh : hit = m.joltage.length <;> simp [hh] at h
    · rintro ⟨pos, hpos, -⟩; cases hpos
  | cons pos rest ih =>
    show (if m.joltage.getD pos 0 < cur.getD pos 0 then EvalResult.invalid
      else if m.joltage.getD pos 0 = cur.getD pos 0 then evalLoop m cur rest (hit + 1)
      else evalLoop m cur rest hit) = .invalid ↔ _
    by_cases h1 : m.joltage.getD pos 0 < cur.getD pos 0
    · rw [if_pos h1]
      constructor
      · intro _; exact ⟨pos, List.mem_cons_self pos rest, h1⟩
      · intro _; rfl
    · rw [if_neg h1]
      have hiff : (∃ q ∈ pos :: rest, m.joltage.getD q 0 < cur.getD q 0)
          ↔ (∃ q ∈ rest, m.joltage.getD q 0 < cur.getD q 0) := by
        constructor
        · rintro ⟨q, hq, hlt⟩
          rcases List.mem_cons.mp hq with rfl | hq'
          · exact absurd hlt h1
          · exact ⟨q, hq', hlt⟩
        · rintro ⟨q, hq, hlt⟩; exact ⟨q, List.mem_cons_of_mem _ hq, hlt⟩
      rw [hiff]
      by_cases h2 : m.joltage.getD pos 0 = cur.getD pos 0
      · rw [if_pos h2]; exact ih (hit + 1)
      · rw [if_neg h2]; exact ih hit

theorem evalLoop_hit_iff (m : Machine) (cur : List Nat) (l : List Nat) (hit : Nat) :
    evalLoop m cur l hit = .hit ↔
      (∀ pos ∈ l, ¬ m.joltage.getD pos 0 < cur.getD pos 0) ∧
      hit + (l.filter (fun pos => m.joltage.getD pos 0 = cur.getD pos 0)).length
        = m.joltage.length := by
  induction l generalizing hit with
  | nil =>
    simp only [evalLoop, List.filter_nil, List.length_nil, List.not_mem_nil]
    constructor
    · intro h
      by_cases hh : hit = m.joltage.length
      · exact ⟨fun _ hp => False.elim hp, by omega⟩
      · rw [if_neg hh] at h; cases h
    · rintro ⟨-, hc⟩
      rw [if_pos (by omega)]
  | cons pos rest ih =>
    show (if m.joltage.getD pos 0 < cur.getD pos 0 then EvalResult.invalid
      else if m.joltage.getD pos 0 = cur.getD pos 0 then evalLoop m cur rest (hit + 1)
      else evalLoop m cur rest hit) = .hit ↔ _
    by_cases h1 : m.joltage.getD pos 0 < cur.getD pos 0
    · rw [if_pos h1]
      constructor
      · intro h; cases h
      · rintro ⟨hall, -⟩
        exact absurd h1 (hall pos (List.mem_cons_self pos rest))
    · rw [if_neg h1]
      have hmem : ∀ P : Nat → Prop, (∀ q ∈ pos :: rest, P q) ↔
          (P pos ∧ ∀ q ∈ rest, P q) := by
        intro P
        constructor
        · intro h
          exact ⟨h pos (List.mem_cons_self pos rest),
            fun q hq => h q (List.mem_cons_of_mem _ hq)⟩
        · rintro ⟨hp, hr⟩ q hq
          rcases List.mem_cons.mp hq with rfl | hq'
          · exact hp
          · exact hr q hq'
      by_cases h2 : m.joltage.getD pos 0 = cur.getD pos 0
      · rw [if_pos h2, ih]
        have hf : (pos :: rest).filter
            (fun q => decide (m.joltage.getD q 0 = cur.getD q 0))
              = pos :: rest.filter (fun q => decide (m.joltage.getD q 0 = cur.getD q 0)) := by
          rw [List.filter_cons, if_pos (by simpa using h2)]
        rw [hf, List.length_cons, hmem]
        constructor
        · rintro ⟨hall, hc⟩; exact ⟨⟨h1, hall⟩, by omega⟩
        · rintro ⟨⟨-, hall⟩, hc⟩; exact ⟨hall, by omega⟩
      · rw [if_neg h2, ih]
        have hf : (pos :: rest).filter
            (fun q => decide (m.joltage.getD q 0 = cur.getD q 0))
              = rest.filter (fun q => decide (m.joltage.getD q 0 = cur.getD q 0)) := by
          rw [List.filter_cons, if_neg (by simpa using h2)]
        rw [hf, hmem]
        constructor
        · rintro ⟨hall, hc⟩; exact ⟨⟨h1, hall⟩, hc⟩
        · rintro ⟨⟨-, hall⟩, hc⟩; exact ⟨hall, hc⟩

theorem all_of_length_filter_eq {α : Type} (p : α → Bool) (l : List α)
    (h : (l.filter p).length = l.length) : ∀ x ∈ l, p x := by
  induction l with
  | nil => intro x hx; cases hx
  | cons a t ih =>
    rw [List.filter_cons] at h
    by_cases hp : p a
    · rw [if_pos hp, List.length_cons, List.length_cons] at h
      intro x hx
      rcases List.mem_cons.mp hx with rfl | hx'
      · exact hp
      · exact ih (by omega) x hx'
    · intro x hx
      exfalso
      rw [if_neg hp, List.length_cons] at h
      have hle := List.length_filter_le p t
      omega

theorem evaluateJoltage_hit_iff (m : Machine) (cur : List Nat) :
    evaluateJoltage m cur = .hit ↔
      ∀ pos < m.joltage.length, m.joltage.getD pos 0 = cur.getD pos 0 := by
  rw [evaluateJoltage, evalLoop_hit_iff]
  constructor
  · rintro ⟨_, hcount⟩ pos hpos
    rw [Nat.zero_add] at hcount
    have hall := all_of_length_filter_eq _ _
      (by rw [hcount, List.length_range])
    have := hall pos (List.mem_range.mpr hpos)
    simpa using this
  · intro hall
    constructor
    · intro pos hpos
      rw [hall pos (List.mem_range.mp hpos)]
      omega
    · rw [Nat.zero_add]
      have : (List.range m.joltage.length).filter
          (fun pos => decide (m.joltage.getD pos 0 = cur.getD pos 0))
            = List.range m.joltage.length := by
        apply List.filter_eq_self.mpr
        intro pos hpos
        simpa using hall pos (List.mem_range.mp hpos)
      rw [this, List.length_range]

theorem evaluateJoltage_invalid_iff (m : Machine) (cur : List Nat) :
    evaluateJoltage m cur = .invalid ↔
      ∃ pos < m.joltage.length, m.joltage.getD pos 0 < cur.getD pos 0 := by
  rw [evaluateJoltage, evalLoop_invalid_iff]
  constructor
  · rintro ⟨pos, hmem, h⟩; exact ⟨pos, List.mem_range.mp hmem, h⟩
  · rintro ⟨pos, hlt, h⟩; exact ⟨pos, List.mem_range.mpr hlt, h⟩

theorem evaluateJoltage_incomplete_facts (m : Machine) (cur : List Nat)
    (h : evaluateJoltage m cur = .incomplete) :
    (∀ pos < m.joltage.length, ¬ m.joltage.getD pos 0 < cur.getD pos 0) ∧
    ∃ pos < m.joltage.length, cur.getD pos 0 < m.joltage.getD pos 0 := by
  have hni : ¬ evaluateJoltage m cur = .invalid := by rw [h]; intro hh; cases hh
  have hnh : ¬ evaluateJoltage m cur = .hit := by rw [h]; intro hh; cases hh
  rw [evaluateJoltage_invalid_iff] at hni
  rw [evaluateJoltage_hit_iff] at hnh
  push_neg at hni hnh
  obtain ⟨pos, hpos, hne⟩ := hnh
  refine ⟨fun q hq => by have := hni q hq; omega, pos, hpos, ?_⟩
  have := hni pos hpos
  omega

/-! ## Facts about solution sets -/

theorem zero_mem_extTotals_of_hit (m : Machine) (u : List Nat) (bs : List Button)
    (h : evaluateJoltage m u = .hit) : 0 ∈ extTotals m u bs := by
  refine ⟨List.replicate bs.length 0, ⟨List.length_replicate _ _, ?_⟩, by simp⟩
  intro pos hpos
  rw [addVec_replicate_zero]
  have := (evaluateJoltage_hit_iff m u).mp h pos hpos
  omega

theorem extTotals_empty_of_invalid (m : Machine) (u : List Nat) (bs : List Button)
    (h : evaluateJoltage m u = .invalid) : extTotals m u bs = ∅ := by
  ext t
  simp only [extTotals, Set.mem_setOf_eq, Set.mem_empty_iff_false, iff_false]
  rintro ⟨cs, ⟨hlen, hsol⟩, hsum⟩
  obtain ⟨pos, hpos, hlt⟩ := (evaluateJoltage_invalid_iff m u).mp h
  have := hsol pos hpos
  omega

/-! ## `select_buttons` characterisation -/

theorem selectLoop_spec (counts : Nat → Nat) (ps : List Nat) (st : Nat × Nat) :
    (selectLoop counts ps st = st ∧ ∀ p ∈ ps, ¬(0 < counts p ∧ counts p < st.1))
    ∨ ((selectLoop counts ps st).2 ∈ ps ∧ 0 < counts (selectLoop counts ps st).2) := by
  induction ps generalizing st with
  | nil => exact Or.inl ⟨rfl, by intro p hp; cases hp⟩
  | cons pos rest ih =>
    obtain ⟨ln, lp⟩ := st
    by_cases hc : 0 < counts pos ∧ counts pos < ln
    · have hstep : selectLoop counts (pos :: rest) (ln, lp)
          = selectLoop counts rest (counts pos, pos) := by
        show (if 0 < counts pos ∧ counts pos < ln then _ else _) = _
        rw [if_pos hc]
      rw [hstep]
      rcases ih (counts pos, pos) with ⟨heq, _⟩ | ⟨hmem, hpos'⟩
      · right
        rw [heq]
        exact ⟨List.mem_cons_self _ _, hc.1⟩
      · exact Or.inr ⟨List.mem_cons_of_mem _ hmem, hpos'⟩
    · have hstep : selectLoop counts (pos :: rest) (ln, lp)
          = selectLoop counts rest (ln, lp) := by
        show (if 0 < counts pos ∧ counts pos < ln then _ else _) = _
        rw [if_neg hc]
      rw [hstep]
      rcases ih (ln, lp) with ⟨heq, hall⟩ | ⟨hmem, hpos'⟩
      · refine Or.inl ⟨heq, ?_⟩
        intro p hp
        rcases List.mem_cons.mp hp with rfl | hp'
        · exact hc
        · exact hall p hp'
      · exact Or.inr ⟨List.mem_cons_of_mem _ hmem, hpos'⟩

/-- A position touched by at least one valid button is not yet satisfied
(this is the Rust `assert!(target > current)`). -/
theorem pos_unsatisfied_of_numValid_pos (m : Machine) (bs : List Button)
    (cur : List Nat) (pos : Nat) (hpos : pos < m.joltage.length)
    (h : 0 < numValidButtons m bs cur pos) :
    cur.getD pos 0 < m.joltage.getD pos 0 := by
  unfold numValidButtons at h
  have hne : (bs.filter
      (fun b => b.contains pos && buttonIsValid b (invalidPositions m cur))) ≠ [] := by
    intro hh; rw [hh] at h; cases h
  obtain ⟨b, hb⟩ := List.exists_mem_of_ne_nil _ hne
  obtain ⟨hbm, hbp⟩ := List.mem_filter.mp hb
  have hcontains : b.contains pos := by
    cases hcp : b.contains pos
    · rw [hcp] at hbp; cases hbp
    · rfl
  have hvalid : buttonIsValid b (invalidPositions m cur) := by
    cases hcp : buttonIsValid b (invalidPositions m cur)
    · rw [hcp] at hbp; simp at hbp
    · rfl
  have hmemb : pos ∈ b := List.mem_of_elem_eq_true hcontains
  have hnotinv : pos ∉ invalidPositions m cur := by
    have hall := List.all_eq_true.mp hvalid pos hmemb
    intro hin
    have : (invalidPositions m cur).contains pos = true := by
      exact List.elem_eq_true_of_mem hin
    rw [this] at hall
    cases hall
  unfold invalidPositions at hnotinv
  by_contra hge
  exact hnotinv (List.mem_filter.mpr
    ⟨List.mem_range.mpr hpos, by simpa using Nat.le_of_not_lt hge⟩)

/-- Full characterisation of `select_buttons`: either no position has a valid
candidate button (and nothing is selected), or some unsatisfied position `lp`
is selected and the buttons are partitioned by membership of `lp`. -/
theorem selectButtons_spec (m : Machine) (bs : List Button) (cur : List Nat) :
    (selectButtons m bs cur = ([], bs, 0) ∧
      (m.joltage.length ≤ USIZE_MAX →
        ∀ pos < m.joltage.length,
          ¬(0 < numValidButtons m bs cur pos ∧
            numValidButtons m bs cur pos < USIZE_MAX)))
    ∨ ∃ lp < m.joltage.length, 0 < numValidButtons m bs cur lp ∧
        cur.getD lp 0 < m.joltage.getD lp 0 ∧
        selectButtons m bs cur
          = (bs.filter (fun b => b.contains lp),
             bs.filter (fun b => !(b.contains lp)),
             m.joltage.getD lp 0 - cur.getD lp 0) := by
  have hloop := selectLoop_spec (numValidButtons m bs cur)
    (List.range m.joltage.length) (USIZE_MAX, USIZE_MAX)
  by_cases hmax : (selectLoop (numValidButtons m bs cur) (List.range m.joltage.length)
      (USIZE_MAX, USIZE_MAX)).2 = USIZE_MAX
  · left
    constructor
    · unfold selectButtons
      dsimp only
      rw [if_pos hmax]
    · intro hlen pos hpos
      rcases hloop with ⟨-, hall⟩ | ⟨hmem, -⟩
      · exact hall pos (List.mem_range.mpr hpos)
      · rw [hmax] at hmem
        have := List.mem_range.mp hmem
        omega
  · right
    rcases hloop with ⟨heq, -⟩ | ⟨hmem, hposc⟩
    · rw [heq] at hmax
      exact absurd rfl hmax
    · have hlt := List.mem_range.mp hmem
      refine ⟨_, hlt, hposc, pos_unsatisfied_of_numValid_pos m bs cur _ hlt hposc, ?_⟩
      unfold selectButtons
      dsimp only
      rw [if_neg hmax, List.partition_eq_filter_filter]
      rfl

/-! ## Splitting and merging assignments across a button partition -/

theorem addVec_split (q : Button → Bool) (bs : List Button) (cs : List Nat)
    (h : cs.length = bs.length) :
    ∃ ds es, ds.length = (bs.filter q).length ∧
      es.length = (bs.filter (fun b => !(q b))).length ∧
      ds.sum + es.sum = cs.sum ∧
      ∀ pos, addVec bs cs pos
        = addVec (bs.filter q) ds pos + addVec (bs.filter (fun b => !(q b))) es pos := by
  induction bs generalizing cs with
  | nil =>
    cases cs with
    | nil => exact ⟨[], [], rfl, rfl, rfl, fun _ => rfl⟩
    | cons c cs => cases h
  | cons b bs ih =>
    cases cs with
    | nil => cases h
    | cons c cs =>
      obtain ⟨ds, es, hd, he, hsum, hpt⟩ := ih cs (by simpa using h)
      by_cases hq : q b
      · refine ⟨c :: ds, es, ?_, ?_, ?_, ?_⟩
        · rw [List.filter_cons, if_pos hq, List.length_cons, List.length_cons, hd]
        · rw [List.filter_cons, if_neg (by simp [hq])]; exact he
        · simp only [List.sum_cons]; omega
        · intro pos
          rw [List.filter_cons, if_pos hq, List.filter_cons, if_neg (by simp [hq])]
          show c * b.count pos + addVec bs cs pos
            = (c * b.count pos + addVec (bs.filter q) ds pos) + _
          rw [hpt pos]; ring
      · refine ⟨ds, c :: es, ?_, ?_, ?_, ?_⟩
        · rw [List.filter_cons, if_neg hq]; exact hd
        · rw [List.filter_cons, if_pos (by simp [hq]), List.length_cons,
            List.length_cons, he]
        · simp only [List.sum_cons]; omega
        · intro pos
          rw [List.filter_cons, if_neg hq, List.filter_cons, if_pos (by simp [hq])]
          show c * b.count pos + addVec bs cs pos
            = addVec (bs.filter q) ds pos + (c * b.count pos + addVec (bs.filter (fun b => !(q b))) es pos)
          rw [hpt pos]; ring

theorem addVec_merge (q : Button → Bool) (bs : List Button) (ds es : List Nat)
    (hd : ds.length = (bs.filter q).length)
    (he : es.length = (bs.filter (fun b => !(q b))).length) :
    ∃ cs, cs.length = bs.length ∧ cs.sum = ds.sum + es.sum ∧
      ∀ pos, addVec bs cs pos
        = addVec (bs.filter q) ds pos + addVec (bs.filter (fun b => !(q b))) es pos := by
  induction bs generalizing ds es with
  | nil =>
    have hd0 : ds = [] := List.length_eq_zero.mp (by simpa using hd)
    have he0 : es = [] := List.length_eq_zero.mp (by simpa using he)
    subst hd0; subst he0
    exact ⟨[], rfl, rfl, fun _ => rfl⟩
  | cons b bs ih =>
    by_cases hq : q b
    · rw [List.filter_cons, if_pos hq] at hd
      rw [List.filter_cons, if_neg (by simp [hq])] at he
      cases ds with
      | nil => cases hd
      | cons d ds =>
        obtain ⟨cs, hlen, hsum, hpt⟩ := ih ds es (by simpa using hd) he
        refine ⟨d :: cs, by simp [hlen], ?_, ?_⟩
        · simp only [List.sum_cons, hsum]; ring
        · intro pos
          rw [List.filter_cons, if_pos hq, List.filter_cons, if_neg (by simp [hq])]
          show d * b.count pos + addVec bs cs pos
            = (d * b.count pos + addVec (bs.filter q) ds pos) + _
          rw [hpt pos]; ring
    · rw [List.filter_cons, if_neg hq] at hd
      rw [List.filter_cons, if_pos (by simp [hq])] at he
      cases es with
      | nil => cases he
      | cons e es =>
        obtain ⟨cs, hlen, hsum, hpt⟩ := ih ds es hd (by simpa using he)
        refine ⟨e :: cs, by simp [hlen], ?_, ?_⟩
        · simp only [List.sum_cons, hsum]; ring
        · intro pos
          rw [List.filter_cons, if_neg hq, List.filter_cons, if_pos (by simp [hq])]
          show e * b.count pos + addVec bs cs pos
            = addVec (bs.filter q) ds pos + (e * b.count pos + addVec (bs.filter (fun b => !(q b))) es pos)
          rw [hpt pos]; ring

/-- Buttons that all contain `pos` and have no duplicates contribute exactly
the total press count at `pos`. -/
theorem addVec_eq_sum_of_all_contain (sel : List Button) (ds : List Nat) (pos : Nat)
    (hds : ds.length = sel.length)
    (hall : ∀ b ∈ sel, pos ∈ b ∧ b.Nodup) :
    addVec sel ds pos = ds.sum := by
  induction sel generalizing ds with
  | nil =>
    have : ds = [] := List.length_eq_zero.mp (by simpa using hds)
    subst this; rfl
  | cons b sel ih =>
    cases ds with
    | nil => cases hds
    | cons d ds =>
      obtain ⟨hmem, hnd⟩ := hall b (List.mem_cons_self b sel)
      show d * b.count pos + addVec sel ds pos = _
      rw [ih ds (by simpa using hds)
        (fun x hx => hall x (List.mem_cons_of_mem _ hx)),
        List.count_eq_one_of_mem hnd hmem]
      simp [List.sum_cons]

/-- Buttons that never contain `pos` contribute nothing at `pos`. -/
theorem addVec_eq_zero_of_not_contain (rem : List Button) (es : List Nat) (pos : Nat)
    (hall : ∀ b ∈ rem, pos ∉ b) :
    addVec rem es pos = 0 := by
  induction rem generalizing es with
  | nil => cases es <;> rfl
  | cons b rem ih =>
    cases es with
    | nil => rfl
    | cons e es =>
      show e * b.count pos + addVec rem es pos = 0
      rw [List.count_eq_zero.mpr (hall b (List.mem_cons_self b rem)),
        ih es (fun x hx => hall x (List.mem_cons_of_mem _ hx))]
      ring

/-- A positive total contribution at `pos` exhibits a pressed button
containing `pos`. -/
theorem addVec_pos_exists (bs : List Button) (cs : List Nat) (pos : Nat)
    (h : 0 < addVec bs cs pos) :
    ∃ p ∈ bs.zip cs, 0 < p.2 ∧ pos ∈ p.1 := by
  induction bs generalizing cs with
  | nil => cases cs <;> cases h
  | cons b bs ih =>
    cases cs with
    | nil => cases h
    | cons c cs =>
      have hshow : addVec (b :: bs) (c :: cs) pos
          = c * b.count pos + addVec bs cs pos := rfl
      rw [hshow] at h
      by_cases hc : 0 < c * b.count pos
      · refine ⟨(b, c), by simp [List.zip_cons_cons], ?_, ?_⟩
        · show 0 < c
          rcases Nat.eq_zero_or_pos c with h0 | h0
          · rw [h0] at hc; simp at hc
          · exact h0
        · show pos ∈ b
          have hcount : 0 < b.count pos := by
            rcases Nat.eq_zero_or_pos (b.count pos) with h0 | h0
            · rw [h0] at hc; simp at hc
            · exact h0
          exact List.count_pos_iff_mem.mp hcount
      · have : 0 < addVec bs cs pos := by omega
        obtain ⟨p, hp, h1, h2⟩ := ih cs this
        exact ⟨p, by simp [List.zip_cons_cons, hp], h1, h2⟩

/-- Each aligned pair bounds the total contribution from below. -/
theorem addVec_ge_pair (bs : List Button) (cs : List Nat) (pos : Nat)
    (p : Button × Nat) (hp : p ∈ bs.zip cs) :
    p.2 * p.1.count pos ≤ addVec bs cs pos := by
  induction bs generalizing cs with
  | nil => cases cs <;> cases hp
  | cons b bs ih =>
    cases cs with
    | nil => cases hp
    | cons c cs =>
      rw [List.zip_cons_cons] at hp
      have hshow : addVec (b :: bs) (c :: cs) pos
          = c * b.count pos + addVec bs cs pos := rfl
      rw [hshow]
      rcases List.mem_cons.mp hp with rfl | hp'
      · show c * b.count pos ≤ c * b.count pos + addVec bs cs pos
        omega
      · have := ih cs hp'
        omega

/-! ## Completeness of the combination enumeration -/

/-- Strict lexicographic order on lists of naturals (compared position by
position from the front). -/
inductive LexLt : List Nat → List Nat → Prop
  | head {a b : Nat} {s t : List Nat} : a < b → LexLt (a :: s) (b :: t)
  | tail {a : Nat} {s t : List Nat} : LexLt s t → LexLt (a :: s) (a :: t)

theorem lexLt_irrefl (l : List Nat) : ¬ LexLt l l := by
  induction l with
  | nil => intro h; cases h
  | cons a t ih =>
    intro h
    cases h with
    | head h => omega
    | tail h => exact ih h

/-- `0, …, 0, s` is the lexicographically least list of its length and sum. -/
theorem minForm_least (z : Nat) (s : Nat) (w : List Nat) (hl : w.length = z + 1)
    (hs : w.sum = s) :
    w = List.replicate z 0 ++ [s] ∨ LexLt (List.replicate z 0 ++ [s]) w := by
  induction z generalizing w s with
  | zero =>
    cases w with
    | nil => cases hl
    | cons y t =>
      have ht : t = [] := List.length_eq_zero.mp (by simpa using hl)
      subst ht
      left
      simp only [List.sum_cons, List.sum_nil] at hs
      simp [← hs]
  | succ k ih =>
    cases w with
    | nil => cases hl
    | cons y t =>
      rcases Nat.eq_zero_or_pos y with rfl | hy
      · have htl : t.length = k + 1 := by simpa using hl
        have hts : t.sum = s := by simpa using hs
        rcases ih s t htl hts with heq | hlex
        · left; rw [List.replicate_succ, List.cons_append, heq]
        · right; rw [List.replicate_succ, List.cons_append]; exact LexLt.tail hlex
      · right
        rw [List.replicate_succ, List.cons_append]
        exact LexLt.head hy

/-- Nothing of the same length and sum is lexicographically above `v, 0, …, 0`. -/
theorem no_lexLt_of_headForm (v z : Nat) (w : List Nat) (hl : w.length = z + 1)
    (hs : w.sum = v) : ¬ LexLt (v :: List.replicate z 0) w := by
  intro hlex
  cases hlex with
  | head h =>
    rename_i b t
    simp only [List.sum_cons] at hs
    omega
  | tail h =>
    rename_i t
    simp only [List.sum_cons] at hs
    have hts : t.sum = 0 := by omega
    have htl : t.length = z := by simpa using hl
    have : t = List.replicate z 0 := by
      rw [← htl]
      exact List.eq_replicate_of_mem fun b hb => (List.sum_eq_zero_iff.mp hts) b hb
    rw [this] at h
    exact lexLt_irrefl _ h

theorem lexLt_append_left (pre l1 l2 : List Nat) (h : LexLt l1 l2) :
    LexLt (pre ++ l1) (pre ++ l2) := by
  induction pre with
  | nil => exact h
  | cons x pre ih => exact LexLt.tail ih

theorem nextCombination_lexLt (c c' : List Nat) (h : nextCombination c = some c') :
    LexLt c c' := by
  obtain ⟨pre, a, v, z, hv, h1, h2⟩ := nextCombination_shape c c' h
  subst h1; subst h2
  exact lexLt_append_left _ _ _ (LexLt.head (Nat.lt_succ_self a))

/-- Core of the successor property, by induction over the common prefix. -/
theorem nextCombination_succ_aux (pre : List Nat) (a v z : Nat) (hv : v ≠ 0) :
    ∀ w, w.length = (pre ++ a :: v :: List.replicate z 0).length →
      w.sum = (pre ++ a :: v :: List.replicate z 0).sum →
      LexLt (pre ++ a :: v :: List.replicate z 0) w →
      w = pre ++ (a + 1) :: (List.replicate z 0 ++ [v - 1]) ∨
        LexLt (pre ++ (a + 1) :: (List.replicate z 0 ++ [v - 1])) w := by
  induction pre with
  | nil =>
    intro w hl hs hlex
    simp only [List.nil_append] at hl hs hlex ⊢
    cases hlex with
    | head hy =>
      rename_i y t
      by_cases hy1 : y = a + 1
      · subst hy1
        have htl : t.length = z + 1 := by simpa using hl
        have hts : t.sum = v - 1 := by
          simp only [List.sum_cons, List.sum_append, List.sum_replicate,
            smul_eq_mul, Nat.mul_zero, List.sum_nil] at hs
          omega
        rcases minForm_least z (v - 1) t htl hts with heq | hlex'
        · left; rw [heq]
        · right; exact LexLt.tail hlex'
      · right
        exact LexLt.head (by omega)
    | tail ht =>
      rename_i t
      exfalso
      have htl : t.length = z + 1 := by simpa using hl
      have hts : t.sum = v := by
        simp only [List.sum_cons, List.sum_replicate, smul_eq_mul,
          Nat.mul_zero] at hs
        omega
      exact no_lexLt_of_headForm v z t htl hts ht
  | cons x pre ih =>
    intro w hl hs hlex
    cases hlex with
    | head hy =>
      rename_i y t
      right
      exact LexLt.head hy
    | tail ht =>
      rename_i t
      have htl : t.length = (pre ++ a :: v :: List.replicate z 0).length := by
        simpa using hl
      have hts : t.sum = (pre ++ a :: v :: List.replicate z 0).sum := by
        simp only [List.cons_append, List.sum_cons] at hs
        omega
      rcases ih t htl hts ht with heq | hlex'
      · left; rw [heq]; rfl
      · right; exact LexLt.tail hlex'

/-- `next_combination` produces the lexicographic successor among the vectors
of the same length and sum. -/
theorem nextCombination_succ (c c' w : List Nat) (h : nextCombination c = some c')
    (hl : w.length = c.length) (hs : w.sum = c.sum) (hlex : LexLt c w) :
    w = c' ∨ LexLt c' w := by
  obtain ⟨pre, a, v, z, hv, h1, h2⟩ := nextCombination_shape c c' h
  subst h1; subst h2
  exact nextCombination_succ_aux pre a v z hv w hl hs hlex

/-- When `next_combination` stops, the current vector is lexicographically
maximal among those of its length and (positive) sum. -/
theorem nextCombination_none_max (c : List Nat) (h : nextCombination c = none)
    (hsum : 1 ≤ c.sum) (w : List Nat) (hl : w.length = c.length)
    (hs : w.sum = c.sum) : ¬ LexLt c w := by
  unfold nextCombination at h
  cases hr : rposNonzero c with
  | none =>
    exfalso
    have : ∀ x ∈ c, x = 0 := (rposNonzero_eq_none_iff c).mp hr
    have : c.sum = 0 := List.sum_eq_zero_iff.mpr this
    omega
  | some i =>
    rw [hr] at h
    by_cases hi : i = 0
    · subst hi
      obtain ⟨v, z, hv, hc⟩ := rposNonzero_zero c hr
      subst hc
      have hl' : w.length = z + 1 := by simpa using hl
      have hs' : w.sum = v := by
        simp only [List.sum_cons, List.sum_replicate, smul_eq_mul,
          Nat.mul_zero] at hs
        omega
      exact no_lexLt_of_headForm v z w hl' hs'
    · dsimp only at h
      rw [if_neg hi] at h
      cases h

theorem comboSeq_eq_of_none (c : List Nat) (h : nextCombination c = none) :
    comboSeq c = [c] := by
  unfold comboSeq
  split
  · rfl
  · rename_i c' h'
    rw [h] at h'
    cases h'

theorem comboSeq_eq_of_some (c c' : List Nat) (h : nextCombination c = some c') :
    comboSeq c = c :: comboSeq c' := by
  conv_lhs => unfold comboSeq
  split
  · rename_i h'
    rw [h] at h'
    cases h'
  · rename_i c'' h'
    rw [h] at h'
    cases h'
    rfl

/-- Every vector in the enumeration keeps the start's sum and length. -/
theorem comboSeq_mem_facts (c : List Nat) :
    ∀ d ∈ comboSeq c, d.sum = c.sum ∧ d.length = c.length := by
  induction c using comboSeq.induct with
  | case1 c hnone =>
    rw [comboSeq_eq_of_none c hnone]
    intro d hd
    rcases List.mem_singleton.mp hd with rfl
    exact ⟨rfl, rfl⟩
  | case2 c c' hsome ih =>
    rw [comboSeq_eq_of_some c c' hsome]
    intro d hd
    rcases List.mem_cons.mp hd with rfl | hd'
    · exact ⟨rfl, rfl⟩
    · obtain ⟨h1, h2⟩ := ih d hd'
      exact ⟨h1.trans (nextCombination_sum c c' hsome),
        h2.trans (nextCombination_length c c' hsome)⟩

/-- Completeness: starting anywhere, the enumeration visits every vector of
the same length and sum that is not lexicographically below the start. -/
theorem comboSeq_complete (c : List Nat) :
    1 ≤ c.sum → ∀ w, w.length = c.length → w.sum = c.sum →
      (w = c ∨ LexLt c w) → w ∈ comboSeq c := by
  induction c using comboSeq.induct with
  | case1 c hnone =>
    intro hsum w hl hs hw
    rw [comboSeq_eq_of_none c hnone]
    rcases hw with rfl | hlex
    · exact List.mem_singleton.mpr rfl
    · exact absurd hlex (nextCombination_none_max c hnone hsum w hl hs)
  | case2 c c' hsome ih =>
    intro hsum w hl hs hw
    rw [comboSeq_eq_of_some c c' hsome]
    rcases hw with rfl | hlex
    · exact List.mem_cons_self _ _
    · have hsum' := nextCombination_sum c c' hsome
      have hlen' := nextCombination_length c c' hsome
      rcases nextCombination_succ c c' w hsome hl hs hlex with rfl | hlex'
      · exact List.mem_cons_of_mem _
          (ih (by omega) w (by omega) (by omega) (Or.inl rfl))
      · exact List.mem_cons_of_mem _
          (ih (by omega) w (by rw [hl, ← hlen']) (by rw [hs, ← hsum'])
            (Or.inr hlex'))

/-- Starting from `0, …, 0, mp`, the `next_combination` loop enumerates every
vector of length `k` and sum `mp`. -/
theorem comboSeq_start_complete (k mp : Nat) (hk : 1 ≤ k) (hmp : 1 ≤ mp)
    (w : List Nat) (hl : w.length = k) (hs : w.sum = mp) :
    w ∈ comboSeq (List.replicate (k - 1) 0 ++ [mp]) := by
  have hslen : (List.replicate (k - 1) 0 ++ [mp]).length = k := by
    simp
    omega
  have hssum : (List.replicate (k - 1) 0 ++ [mp]).sum = mp := by
    simp [List.sum_append, List.sum_replicate]
  apply comboSeq_complete _ (by omega) w (by omega) (by omega)
  have := minForm_least (k - 1) mp w (by omega) hs
  exact this

/-! ## Decomposing the solution set along a `select_buttons` partition -/

theorem isSol_apply_iff (m : Machine) (cur : List Nat) (sel rem : List Button)
    (ds es : List Nat) (hcur : cur.length = m.joltage.length) :
    IsSol m (applyCountsU cur sel ds) rem es ↔
      (es.length = rem.length ∧ ∀ pos < m.joltage.length,
        cur.getD pos 0 + (addVec sel ds pos + addVec rem es pos)
          = m.joltage.getD pos 0) := by
  unfold IsSol
  constructor
  · rintro ⟨hlen, hpt⟩
    refine ⟨hlen, fun pos hpos => ?_⟩
    have h := hpt pos hpos
    rw [applyCountsU_getD cur sel ds pos (by omega)] at h
    omega
  · rintro ⟨hlen, hpt⟩
    refine ⟨hlen, fun pos hpos => ?_⟩
    rw [applyCountsU_getD cur sel ds pos (by omega)]
    have h := hpt pos hpos
    omega

/-- Merging a selected-button assignment with a solution of the updated state
gives a solution of the original state (no side conditions needed). -/
theorem extTotals_compose (m : Machine) (cur : List Nat) (bs : List Button) (lp : Nat)
    (hcur : cur.length = m.joltage.length) (ds es : List Nat)
    (hds : ds.length = (bs.filter (fun b => b.contains lp)).length)
    (hsol : IsSol m (applyCountsU cur (bs.filter (fun b => b.contains lp)) ds)
      (bs.filter (fun b => !(b.contains lp))) es) :
    (ds.sum + es.sum) ∈ extTotals m cur bs := by
  obtain ⟨hes, hpt⟩ := (isSol_apply_iff m cur _ _ ds es hcur).mp hsol
  obtain ⟨cs, hclen, hcsum, hcpt⟩ :=
    addVec_merge (fun b => b.contains lp) bs ds es hds hes
  refine ⟨cs, ⟨hclen, fun pos hpos => ?_⟩, hcsum⟩
  rw [hcpt pos]
  have := hpt pos hpos
  omega

/-- Splitting a solution of the original state along the partition at an
unsatisfied position `lp`: the selected buttons are pressed exactly
`target - current` times in total (uses that each selected button lists `lp`
once, i.e. no duplicate indices). -/
theorem extTotals_decompose (m : Machine) (cur : List Nat) (bs : List Button)
    (lp : Nat) (hcur : cur.length = m.joltage.length)
    (hlp : lp < m.joltage.length)
    (hnd : ∀ b ∈ bs, b.Nodup)
    (t : Nat) (ht : t ∈ extTotals m cur bs) :
    ∃ ds es, ds.length = (bs.filter (fun b => b.contains lp)).length ∧
      ds.sum = m.joltage.getD lp 0 - cur.getD lp 0 ∧
      IsSol m (applyCountsU cur (bs.filter (fun b => b.contains lp)) ds)
        (bs.filter (fun b => !(b.contains lp))) es ∧
      t = ds.sum + es.sum := by
  obtain ⟨cs, ⟨hclen, hcpt⟩, hcsum⟩ := ht
  obtain ⟨ds, es, hd, he, hsum, hpt⟩ := addVec_split (fun b => b.contains lp) bs cs hclen
  have hrem0 : addVec (bs.filter (fun b => !(b.contains lp))) es lp = 0 := by
    apply addVec_eq_zero_of_not_contain
    intro b hb hmem
    have hmf := List.mem_filter.mp hb
    have hc : b.contains lp = true := List.elem_eq_true_of_mem hmem
    rw [hc] at hmf
    exact absurd hmf.2 (by simp)
  have hsel : addVec (bs.filter (fun b => b.contains lp)) ds lp = ds.sum := by
    apply addVec_eq_sum_of_all_contain _ _ _ hd
    intro b hb
    have hmf := List.mem_filter.mp hb
    exact ⟨List.mem_of_elem_eq_true hmf.2, hnd b hmf.1⟩
  have heq := hcpt lp hlp
  rw [hpt lp, hrem0, hsel] at heq
  refine ⟨ds, es, hd, by omega, ?_, by omega⟩
  rw [isSol_apply_iff m cur _ _ ds es hcur]
  refine ⟨he, fun pos hpos => ?_⟩
  rw [← hpt pos]
  exact hcpt pos hpos

/-- Every solution from a state with an unsatisfied selected position costs at
least the amount still needed there. -/
theorem extTotals_lower_bound (m : Machine) (cur : List Nat) (bs : List Button)
    (lp : Nat) (hcur : cur.length = m.joltage.length)
    (hlp : lp < m.joltage.length)
    (hnd : ∀ b ∈ bs, b.Nodup)
    (t : Nat) (ht : t ∈ extTotals m cur bs) :
    m.joltage.getD lp 0 - cur.getD lp 0 ≤ t := by
  obtain ⟨ds, es, -, hdsum, -, hteq⟩ :=
    extTotals_decompose m cur bs lp hcur hlp hnd t ht
  omega

/-- If no position has a valid candidate button and the accumulator is not yet
complete, there is no solution. -/
theorem extTotals_empty_of_no_candidates (m : Machine) (bs : List Button)
    (cur : List Nat) (hcur : cur.length = m.joltage.length)
    (hall : ∀ pos < m.joltage.length, numValidButtons m bs cur pos = 0)
    (hincomp : evaluateJoltage m cur = .incomplete) :
    extTotals m cur bs = ∅ := by
  ext t
  simp only [extTotals, Set.mem_setOf_eq, Set.mem_empty_iff_false, iff_false]
  rintro ⟨cs, ⟨hclen, hcpt⟩, -⟩
  obtain ⟨hnolt, pos0, hpos0, hlt⟩ := evaluateJoltage_incomplete_facts m cur hincomp
  have hpos_add : 0 < addVec bs cs pos0 := by
    have := hcpt pos0 hpos0
    omega
  obtain ⟨⟨b, cnt⟩, hzip, hcnt, hmem⟩ := addVec_pos_exists bs cs pos0 hpos_add
  have hbmem : b ∈ bs := (List.of_mem_zip hzip).1
  have hvalid : buttonIsValid b (invalidPositions m cur) = true := by
    rw [buttonIsValid, List.all_eq_true]
    intro q hq
    by_contra hbad
    have hqinv : q ∈ invalidPositions m cur := by
      cases hcq : (invalidPositions m cur).contains q
      · exfalso
        apply hbad
        rw [hcq]
        rfl
      · exact List.mem_of_elem_eq_true hcq
    have hqfacts := List.mem_filter.mp hqinv
    have hqlen : q < m.joltage.length := List.mem_range.mp hqfacts.1
    have hqge : m.joltage.getD q 0 ≤ cur.getD q 0 := by simpa using hqfacts.2
    have hge : cnt * b.count q ≤ addVec bs cs q := addVec_ge_pair bs cs q (b, cnt) hzip
    have hcount : 0 < b.count q := List.count_pos_iff_mem.mpr hq
    have hsolq := hcpt q hqlen
    have hp : 0 < cnt * b.count q := Nat.mul_pos hcnt hcount
    omega
  have hbfil : b ∈ bs.filter
      (fun b => b.contains pos0 && buttonIsValid b (invalidPositions m cur)) :=
    List.mem_filter.mpr ⟨hbmem, by
      have hc : b.contains pos0 = true := List.elem_eq_true_of_mem hmem
      rw [hc, hvalid]; rfl⟩
  have hlen_pos : 0 < numValidButtons m bs cur pos0 := by
    unfold numValidButtons
    exact List.length_pos.mpr (List.ne_nil_of_mem hbfil)
  rw [hall pos0 hpos0] at hlen_pos
  cases hlen_pos

/-! ## Behaviour of the multi-button fold -/

theorem comboFoldU_nil (m : Machine) (sel : List Button) (cur : List Nat)
    (p mp : Nat) (recur : List Nat → Nat → Option Nat × Nat)
    (st : Option Nat × Nat) :
    comboFoldU m sel cur p mp recur [] st = st := rfl

theorem comboFoldU_cons (m : Machine) (sel : List Button) (cur : List Nat)
    (p mp : Nat) (recur : List Nat → Nat → Option Nat × Nat)
    (d : List Nat) (L : List (List Nat)) (best : Option Nat) (least : Nat) :
    comboFoldU m sel cur p mp recur (d :: L) (best, least) =
      (match evaluateJoltage m (applyCountsU cur sel d) with
       | .hit =>
         (match best with
          | none => comboFoldU m sel cur p mp recur L
              (some (p + mp), if p + mp < least then p + mp else least)
          | some b =>
            if p + mp < b then
              comboFoldU m sel cur p mp recur L
                (some (p + mp), if p + mp < least then p + mp else least)
            else comboFoldU m sel cur p mp recur L (some b, least))
       | .incomplete =>
         (match recur (applyCountsU cur sel d) least with
          | (none, least') => comboFoldU m sel cur p mp recur L (best, least')
          | (some rv, least') =>
            (match best with
             | none => comboFoldU m sel cur p mp recur L
                 (some rv, if rv < least' then rv else least')
             | some b =>
               if rv < b then
                 comboFoldU m sel cur p mp recur L
                   (some rv, if rv < least' then rv else least')
               else comboFoldU m sel cur p mp recur L (some b, least')))
       | .invalid => comboFoldU m sel cur p mp recur L (best, least)) := rfl

/-- Chaining one fold step's `least` facts with the remaining fold's. -/
theorem leastChain (final newLeast least p : Nat) (T : Set Nat)
    (h1 : final ≤ newLeast) (h2 : final < newLeast → ∃ t ∈ T, final = p + t)
    (h3 : newLeast ≤ least) (h4 : newLeast < least → ∃ t ∈ T, newLeast = p + t) :
    final ≤ least ∧ (final < least → ∃ t ∈ T, final = p + t) := by
  refine ⟨le_trans h1 h3, fun hlt => ?_⟩
  rcases Nat.lt_or_ge final newLeast with h | h
  · exact h2 h
  · have heq : final = newLeast := Nat.le_antisymm h1 h
    rw [heq]
    exact h4 (heq ▸ hlt)

/-- Soundness of the multi-button fold: every returned value is `presses` plus
a genuine solution total (translated into `T` by `Hcomp`), bounded by the
`least_presses` bound at loop entry; and `least_presses` only decreases, and
only to such values. -/
theorem comboFoldU_spec (m : Machine) (sel rem : List Button) (cur : List Nat)
    (p mp least0 : Nat) (recur : List Nat → Nat → Option Nat × Nat) (T : Set Nat)
    (hcur : cur.length = m.joltage.length)
    (hprune : p + mp ≤ least0)
    (Hrec_sound : ∀ cur' least' r, cur'.length = m.joltage.length →
      (recur cur' least').1 = some r →
      (∃ t ∈ extTotals m cur' rem, r = (p + mp) + t) ∧ r ≤ least')
    (Hrec_least : ∀ cur' least', cur'.length = m.joltage.length →
      (recur cur' least').2 ≤ least' ∧
      ((recur cur' least').2 < least' →
        ∃ t ∈ extTotals m cur' rem, (recur cur' least').2 = (p + mp) + t))
    (Hcomp : ∀ d t', d.length = sel.length →
      t' ∈ extTotals m (applyCountsU cur sel d) rem → (d.sum + t') ∈ T) :
    ∀ (L : List (List Nat)) (best : Option Nat) (least : Nat),
      (∀ d ∈ L, d.length = sel.length ∧ d.sum = mp) →
      least ≤ least0 →
      (∀ bv, best = some bv → (∃ t ∈ T, bv = p + t) ∧ bv ≤ least0) →
      (∀ r, (comboFoldU m sel cur p mp recur L (best, least)).1 = some r →
          (∃ t ∈ T, r = p + t) ∧ r ≤ least0) ∧
      (comboFoldU m sel cur p mp recur L (best, least)).2 ≤ least ∧
      ((comboFoldU m sel cur p mp recur L (best, least)).2 < least →
        ∃ t ∈ T, (comboFoldU m sel cur p mp recur L (best, least)).2 = p + t) := by
  intro L
  induction L with
  | nil =>
    intro best least _ _ hbest
    rw [comboFoldU_nil]
    exact ⟨fun r hr => hbest r hr, Nat.le_refl _, fun hlt => absurd hlt (lt_irrefl _)⟩
  | cons d L ih =>
    intro best least HL hle hbest
    obtain ⟨hdlen, hdsum⟩ := HL d (List.mem_cons_self d L)
    have HL' : ∀ d' ∈ L, d'.length = sel.length ∧ d'.sum = mp :=
      fun d' hd' => HL d' (List.mem_cons_of_mem _ hd')
    have hupdlen : (applyCountsU cur sel d).length = m.joltage.length := by
      rw [applyCountsU_length]; exact hcur
    rw [comboFoldU_cons]
    cases heval : evaluateJoltage m (applyCountsU cur sel d) with
    | hit =>
      dsimp only
      have hmpT : mp ∈ T := by
        have h0 := zero_mem_extTotals_of_hit m _ rem heval
        have hT := Hcomp d 0 hdlen h0
        rw [hdsum] at hT
        simpa using hT
      have hdid_inv : ∀ bv, some (p + mp) = some bv →
          (∃ t ∈ T, bv = p + t) ∧ bv ≤ least0 := by
        rintro bv hbv
        cases hbv
        exact ⟨⟨mp, hmpT, rfl⟩, hprune⟩
      have hl'le : (if p + mp < least then p + mp else least) ≤ least := by
        split <;> omega
      have hl'gen : (if p + mp < least then p + mp else least) < least →
          ∃ t ∈ T, (if p + mp < least then p + mp else least) = p + t := by
        intro hlt
        by_cases hc : p + mp < least
        · rw [if_pos hc] at hlt ⊢
          exact ⟨mp, hmpT, rfl⟩
        · rw [if_neg hc] at hlt
          exact absurd hlt (lt_irrefl _)
      cases best with
      | none =>
        dsimp only
        obtain ⟨hsound, hfle, hfgen⟩ := ih (some (p + mp))
          (if p + mp < least then p + mp else least) HL'
          (le_trans hl'le hle) hdid_inv
        exact ⟨hsound, leastChain _ _ _ _ _ hfle hfgen hl'le hl'gen⟩
      | some b =>
        dsimp only
        by_cases hb : p + mp < b
        · rw [if_pos hb]
          obtain ⟨hsound, hfle, hfgen⟩ := ih (some (p + mp))
            (if p + mp < least then p + mp else least) HL'
            (le_trans hl'le hle) hdid_inv
          exact ⟨hsound, leastChain _ _ _ _ _ hfle hfgen hl'le hl'gen⟩
        · rw [if_neg hb]
          exact ih (some b) least HL' hle hbest
    | incomplete =>
      dsimp only
      rcases hrec : recur (applyCountsU cur sel d) least with ⟨r', l'⟩
      obtain ⟨hl'le, hl'gen0⟩ := Hrec_least (applyCountsU cur sel d) least hupdlen
      rw [hrec] at hl'le hl'gen0
      dsimp only at hl'le hl'gen0
      have hl'gen : l' < least → ∃ t ∈ T, l' = p + t := by
        intro hlt
        obtain ⟨t', ht', heq⟩ := hl'gen0 hlt
        refine ⟨mp + t', ?_, by omega⟩
        have := Hcomp d t' hdlen ht'
        rwa [hdsum] at this
      cases r' with
      | none =>
        dsimp only
        obtain ⟨hsound, hfle, hfgen⟩ := ih best l' HL' (le_trans hl'le hle) hbest
        exact ⟨hsound, leastChain _ _ _ _ _ hfle hfgen hl'le hl'gen⟩
      | some rv =>
        dsimp only
        obtain ⟨⟨t', ht', hrveq⟩, hrvle⟩ := Hrec_sound (applyCountsU cur sel d) least
          rv hupdlen (by rw [hrec])
        have hrvT : rv = p + (mp + t') := by omega
        have hrvmem : (mp + t') ∈ T := by
          have := Hcomp d t' hdlen ht'
          rwa [hdsum] at this
        have hrv_inv : ∀ bv, some rv = some bv →
            (∃ t ∈ T, bv = p + t) ∧ bv ≤ least0 := by
          rintro bv hbv
          cases hbv
          exact ⟨⟨mp + t', hrvmem, hrvT⟩, le_trans hrvle hle⟩
        have hnl_le : (if rv < l' then rv else l') ≤ least := by
          split <;> omega
        have hnl_gen : (if rv < l' then rv else l') < least →
            ∃ t ∈ T, (if rv < l' then rv else l') = p + t := by
          intro hlt
          by_cases hc : rv < l'
          · rw [if_pos hc]
            exact ⟨mp + t', hrvmem, hrvT⟩
          · rw [if_neg hc] at hlt ⊢
            exact hl'gen hlt
        cases best with
        | none =>
          dsimp only
          obtain ⟨hsound, hfle, hfgen⟩ := ih (some rv)
            (if rv < l' then rv else l') HL' (le_trans hnl_le hle) hrv_inv
          refine ⟨hsound, ?_⟩
          refine leastChain _ _ _ _ _ hfle hfgen hnl_le hnl_gen
        | some b =>
          dsimp only
          by_cases hb : rv < b
          · rw [if_pos hb]
            obtain ⟨hsound, hfle, hfgen⟩ := ih (some rv)
              (if rv < l' then rv else l') HL' (le_trans hnl_le hle) hrv_inv
            exact ⟨hsound, leastChain _ _ _ _ _ hfle hfgen hnl_le hnl_gen⟩
          · rw [if_neg hb]
            obtain ⟨hsound, hfle, hfgen⟩ := ih (some b) l' HL'
              (le_trans hl'le hle) hbest
            exact ⟨hsound, leastChain _ _ _ _ _ hfle hfgen hl'le hl'gen⟩
    | invalid =>
      dsimp only
      exact ih best least HL' hle hbest

/-- Completeness of the multi-button fold: if the minimum solution total
`tmin` is within the current bound and is witnessed either by the best found
so far or through one of the still-unprocessed combinations, the fold returns
exactly `presses + tmin`. -/
theorem comboFoldU_complete (m : Machine) (sel rem : List Button) (cur : List Nat)
    (p mp least0 : Nat) (recur : List Nat → Nat → Option Nat × Nat) (T : Set Nat)
    (hcur : cur.length = m.joltage.length)
    (hprune : p + mp ≤ least0)
    (Hrec_sound : ∀ cur' least' r, cur'.length = m.joltage.length →
      (recur cur' least').1 = some r →
      (∃ t ∈ extTotals m cur' rem, r = (p + mp) + t) ∧ r ≤ least')
    (Hrec_least : ∀ cur' least', cur'.length = m.joltage.length →
      (recur cur' least').2 ≤ least' ∧
      ((recur cur' least').2 < least' →
        ∃ t ∈ extTotals m cur' rem, (recur cur' least').2 = (p + mp) + t))
    (Hrec_complete : ∀ cur' least' t', cur'.length = m.joltage.length →
      IsLeast (extTotals m cur' rem) t' → (p + mp) + t' ≤ least' →
      (recur cur' least').1 = some ((p + mp) + t'))
    (Hcomp : ∀ d t', d.length = sel.length →
      t' ∈ extTotals m (applyCountsU cur sel d) rem → (d.sum + t') ∈ T)
    (tmin : Nat) (htmin : IsLeast T tmin) :
    ∀ (L : List (List Nat)) (best : Option Nat) (least : Nat),
      (∀ d ∈ L, d.length = sel.length ∧ d.sum = mp) →
      least ≤ least0 →
      (∀ bv, best = some bv → (∃ t ∈ T, bv = p + t) ∧ bv ≤ least0) →
      p + tmin ≤ least →
      (best = some (p + tmin) ∨
        ∃ d ∈ L, mp ≤ tmin ∧
          IsLeast (extTotals m (applyCountsU cur sel d) rem) (tmin - mp)) →
      (comboFoldU m sel cur p mp recur L (best, least)).1 = some (p + tmin) := by
  intro L
  induction L with
  | nil =>
    intro best least _ _ _ _ HC
    rw [comboFoldU_nil]
    rcases HC with HC | ⟨d, hd, -⟩
    · exact HC
    · cases hd
  | cons d L ih =>
    intro best least HL hle hbest hptmin HC
    obtain ⟨hdlen, hdsum⟩ := HL d (List.mem_cons_self d L)
    have HL' : ∀ d' ∈ L, d'.length = sel.length ∧ d'.sum = mp :=
      fun d' hd' => HL d' (List.mem_cons_of_mem _ hd')
    have hupdlen : (applyCountsU cur sel d).length = m.joltage.length := by
      rw [applyCountsU_length]; exact hcur
    rw [comboFoldU_cons]
    cases heval : evaluateJoltage m (applyCountsU cur sel d) with
    | hit =>
      dsimp only
      have hmpT : mp ∈ T := by
        have h0 := zero_mem_extTotals_of_hit m _ rem heval
        have hT := Hcomp d 0 hdlen h0
        rw [hdsum] at hT
        simpa using hT
      have htlemp : tmin ≤ mp := htmin.2 hmpT
      have hdid_inv : ∀ bv, some (p + mp) = some bv →
          (∃ t ∈ T, bv = p + t) ∧ bv ≤ least0 := by
        rintro bv hbv
        cases hbv
        exact ⟨⟨mp, hmpT, rfl⟩, hprune⟩
      have hl'le : (if p + mp < least then p + mp else least) ≤ least := by
        split <;> omega
      have hptmin' : p + tmin ≤ (if p + mp < least then p + mp else least) := by
        split <;> omega
      -- the "witness is this combination" case forces tmin = mp
      have hwitd : (mp ≤ tmin ∧
          IsLeast (extTotals m (applyCountsU cur sel d) rem) (tmin - mp)) →
          tmin = mp := by
        rintro ⟨hge, hleast⟩
        have h0 := zero_mem_extTotals_of_hit m _ rem heval
        have := hleast.2 h0
        omega
      cases best with
      | none =>
        dsimp only
        rcases HC with HC | ⟨d', hd', hvit⟩
        · cases HC
        · rcases List.mem_cons.mp hd' with rfl | hd''
          · have : tmin = mp := hwitd hvit
            subst this
            exact ih (some (p + tmin))
              (if p + tmin < least then p + tmin else least) HL'
              (le_trans hl'le hle) hdid_inv hptmin' (Or.inl rfl)
          · exact ih (some (p + mp))
              (if p + mp < least then p + mp else least) HL'
              (le_trans hl'le hle) hdid_inv hptmin' (Or.inr ⟨d', hd'', hvit⟩)
      | some b =>
        dsimp only
        obtain ⟨⟨tb, htb, hbeq⟩, hble⟩ := hbest b rfl
        have hbtmin : p + tmin ≤ b := by
          have := htmin.2 htb
          omega
        by_cases hb : p + mp < b
        · rw [if_pos hb]
          rcases HC with HC | ⟨d', hd', hvit⟩
          · exfalso
            have hbv : b = p + tmin := Option.some.inj HC
            omega
          · rcases List.mem_cons.mp hd' with rfl | hd''
            · have : tmin = mp := hwitd hvit
              subst this
              exact ih (some (p + tmin))
                (if p + tmin < least then p + tmin else least) HL'
                (le_trans hl'le hle) hdid_inv hptmin' (Or.inl rfl)
            · exact ih (some (p + mp))
                (if p + mp < least then p + mp else least) HL'
                (le_trans hl'le hle) hdid_inv hptmin' (Or.inr ⟨d', hd'', hvit⟩)
        · rw [if_neg hb]
          rcases HC with HC | ⟨d', hd', hvit⟩
          · exact ih (some b) least HL' hle hbest hptmin (Or.inl HC)
          · rcases List.mem_cons.mp hd' with rfl | hd''
            · have heqt : tmin = mp := hwitd hvit
              have hbv : b = p + tmin := by omega
              exact ih (some b) least HL' hle hbest hptmin (Or.inl (by rw [hbv]))
            · exact ih (some b) least HL' hle hbest hptmin (Or.inr ⟨d', hd'', hvit⟩)
    | incomplete =>
      dsimp only
      rcases hrec : recur (applyCountsU cur sel d) least with ⟨r', l'⟩
      obtain ⟨hl'le, hl'gen0⟩ := Hrec_least (applyCountsU cur sel d) least hupdlen
      rw [hrec] at hl'le hl'gen0
      dsimp only at hl'le hl'gen0
      have hl'tmin : p + tmin ≤ l' := by
        rcases Nat.lt_or_ge l' least with hlt | hge
        · obtain ⟨t', ht', heq⟩ := hl'gen0 hlt
          have hmem : (mp + t') ∈ T := by
            have := Hcomp d t' hdlen ht'
            rwa [hdsum] at this
          have := htmin.2 hmem
          omega
        · omega
      cases r' with
      | none =>
        dsimp only
        rcases HC with HC | ⟨d', hd', hvit⟩
        · exact ih best l' HL' (le_trans hl'le hle) hbest hl'tmin (Or.inl HC)
        · rcases List.mem_cons.mp hd' with rfl | hd''
          · exfalso
            obtain ⟨hge, hleast⟩ := hvit
            have hrc := Hrec_complete _ least (tmin - mp)
              (by rw [applyCountsU_length]; exact hcur) hleast (by omega)
            rw [hrec] at hrc
            dsimp only at hrc
            cases hrc
          · exact ih best l' HL' (le_trans hl'le hle) hbest hl'tmin
              (Or.inr ⟨d', hd'', hvit⟩)
      | some rv =>
        dsimp only
        obtain ⟨⟨t', ht', hrveq⟩, hrvle⟩ := Hrec_sound (applyCountsU cur sel d) least
          rv hupdlen (by rw [hrec])
        have hrvmem : (mp + t') ∈ T := by
          have := Hcomp d t' hdlen ht'
          rwa [hdsum] at this
        have hrvT : rv = p + (mp + t') := by omega
        have hrvge : p + tmin ≤ rv := by
          have := htmin.2 hrvmem
          omega
        have hrv_inv : ∀ bv, some rv = some bv →
            (∃ t ∈ T, bv = p + t) ∧ bv ≤ least0 := by
          rintro bv hbv
          cases hbv
          exact ⟨⟨mp + t', hrvmem, hrvT⟩, le_trans hrvle hle⟩
        have hnl_le : (if rv < l' then rv else l') ≤ least := by
          split <;> omega
        have hnl_tmin : p + tmin ≤ (if rv < l' then rv else l') := by
          split <;> omega
        have hrv_eq_of_wit : (mp ≤ tmin ∧
            IsLeast (extTotals m (applyCountsU cur sel d) rem) (tmin - mp)) →
            rv = p + tmin := by
          rintro ⟨hge, hleast⟩
          have hrc := Hrec_complete _ least (tmin - mp)
            (by rw [applyCountsU_length]; exact hcur) hleast (by omega)
          rw [hrec] at hrc
          dsimp only at hrc
          have h := Option.some.inj hrc
          omega
        cases best with
        | none =>
          dsimp only
          rcases HC with HC | ⟨d', hd', hvit⟩
          · cases HC
          · rcases List.mem_cons.mp hd' with rfl | hd''
            · have hrvt : rv = p + tmin := hrv_eq_of_wit hvit
              exact ih (some rv) (if rv < l' then rv else l') HL'
                (le_trans hnl_le hle) hrv_inv hnl_tmin (Or.inl (by rw [hrvt]))
            · exact ih (some rv) (if rv < l' then rv else l') HL'
                (le_trans hnl_le hle) hrv_inv hnl_tmin (Or.inr ⟨d', hd'', hvit⟩)
        | some b =>
          dsimp only
          obtain ⟨⟨tb, htb, hbeq⟩, hble⟩ := hbest b rfl
          have hbtmin : p + tmin ≤ b := by
            have := htmin.2 htb
            omega
          by_cases hb : rv < b
          · rw [if_pos hb]
            rcases HC with HC | ⟨d', hd', hvit⟩
            · exfalso
              injection HC with h
              omega
            · rcases List.mem_cons.mp hd' with rfl | hd''
              · have hrvt : rv = p + tmin := hrv_eq_of_wit hvit
                exact ih (some rv) (if rv < l' then rv else l') HL'
                  (le_trans hnl_le hle) hrv_inv hnl_tmin (Or.inl (by rw [hrvt]))
              · exact ih (some rv) (if rv < l' then rv else l') HL'
                  (le_trans hnl_le hle) hrv_inv hnl_tmin (Or.inr ⟨d', hd'', hvit⟩)
          · rw [if_neg hb]
            rcases HC with HC | ⟨d', hd', hvit⟩
            · exact ih (some b) l' HL' (le_trans hl'le hle) hbest hl'tmin (Or.inl HC)
            · rcases List.mem_cons.mp hd' with rfl | hd''
              · have hrvt : rv = p + tmin := hrv_eq_of_wit hvit
                have hbv : b = p + tmin := by omega
                exact ih (some b) l' HL' (le_trans hl'le hle) hbest hl'tmin
                  (Or.inl (by rw [hbv]))
              · exact ih (some b) l' HL' (le_trans hl'le hle) hbest hl'tmin
                  (Or.inr ⟨d', hd'', hvit⟩)
    | invalid =>
      dsimp only
      rcases HC with HC | ⟨d', hd', hvit⟩
      · exact ih best least HL' hle hbest hptmin (Or.inl HC)
      · rcases List.mem_cons.mp hd' with rfl | hd''
        · exfalso
          obtain ⟨-, hleast⟩ := hvit
          have hempty := extTotals_empty_of_invalid m _ rem heval
          rw [hempty] at hleast
          exact hleast.1
        · exact ih best least HL' hle hbest hptmin (Or.inr ⟨d', hd'', hvit⟩)

/-! ## Unfolding equations for `search_joltage` -/

theorem searchJoltageU_prune (m : Machine) (cur : List Nat) (bs : List Button)
    (p least : Nat) (sel rem : List Button) (mp : Nat)
    (hsel : selectButtons m bs cur = (sel, rem, mp)) (h : least < p + mp) :
    searchJoltageU m cur bs p least = (none, least) := by
  have hcond : least < p + (selectButtons m bs cur).2.2 := by rw [hsel]; exact h
  conv_lhs => unfold searchJoltageU
  rw [if_pos hcond]

theorem searchJoltageU_noSel_hit (m : Machine) (cur : List Nat) (bs : List Button)
    (p least : Nat) (rem : List Button) (mp : Nat)
    (hsel : selectButtons m bs cur = ([], rem, mp)) (h : ¬ least < p + mp)
    (heval : evaluateJoltage m cur = .hit) :
    searchJoltageU m cur bs p least = (some p, least) := by
  have hcond : ¬ least < p + (selectButtons m bs cur).2.2 := by rw [hsel]; exact h
  conv_lhs => unfold searchJoltageU
  rw [if_neg hcond]
  split
  · rw [heval]
  · rename_i heq hhe
    rw [hsel] at heq
    simp at heq
  · rename_i heq hhe
    rw [hsel] at heq
    simp at heq

theorem searchJoltageU_noSel_incomplete (m : Machine) (cur : List Nat) (bs : List Button)
    (p least : Nat) (rem : List Button) (mp : Nat)
    (hsel : selectButtons m bs cur = ([], rem, mp)) (h : ¬ least < p + mp)
    (heval : evaluateJoltage m cur = .incomplete) :
    searchJoltageU m cur bs p least = (none, least) := by
  have hcond : ¬ least < p + (selectButtons m bs cur).2.2 := by rw [hsel]; exact h
  conv_lhs => unfold searchJoltageU
  rw [if_neg hcond]
  split
  · rw [heval]
  · rename_i heq hhe
    rw [hsel] at heq
    simp at heq
  · rename_i heq hhe
    rw [hsel] at heq
    simp at heq

theorem searchJoltageU_noSel_invalid (m : Machine) (cur : List Nat) (bs : List Button)
    (p least : Nat) (rem : List Button) (mp : Nat)
    (hsel : selectButtons m bs cur = ([], rem, mp)) (h : ¬ least < p + mp)
    (heval : evaluateJoltage m cur = .invalid) :
    searchJoltageU m cur bs p least = (none, least) := by
  have hcond : ¬ least < p + (selectButtons m bs cur).2.2 := by rw [hsel]; exact h
  conv_lhs => unfold searchJoltageU
  rw [if_neg hcond]
  split
  · rw [heval]
  · rename_i heq hhe
    rw [hsel] at heq
    simp at heq
  · rename_i heq hhe
    rw [hsel] at heq
    simp at heq

theorem searchJoltageU_single (m : Machine) (cur : List Nat) (bs : List Button)
    (p least : Nat) (b : Button) (rem : List Button) (mp : Nat)
    (hsel : selectButtons m bs cur = ([b], rem, mp)) (h : ¬ least < p + mp) :
    searchJoltageU m cur bs p least =
      searchJoltageU m (pushButtonJoltageU cur b mp) rem (p + mp) least := by
  have hcond : ¬ least < p + (selectButtons m bs cur).2.2 := by rw [hsel]; exact h
  have h22 : (selectButtons m bs cur).2.2 = mp := by rw [hsel]
  have h21 : (selectButtons m bs cur).2.1 = rem := by rw [hsel]
  conv_lhs => unfold searchJoltageU
  rw [if_neg hcond]
  split
  · rename_i heq hhe
    rw [hsel] at heq
    simp at heq
  · rename_i heq hhe
    rw [hsel] at heq
    simp only [List.cons.injEq, and_true] at heq
    subst heq
    rw [h21, h22]
  · rename_i heq hhe
    rw [hsel] at heq
    simp at heq

theorem searchJoltageU_multi (m : Machine) (cur : List Nat) (bs : List Button)
    (p least : Nat) (b1 b2 : Button) (tl rem : List Button) (mp : Nat)
    (hsel : selectButtons m bs cur = (b1 :: b2 :: tl, rem, mp)) (h : ¬ least < p + mp) :
    searchJoltageU m cur bs p least =
      comboFoldU m (b1 :: b2 :: tl) cur p mp
        (fun cur' least' => searchJoltageU m cur' rem (p + mp) least')
        (comboSeq (List.replicate ((b1 :: b2 :: tl).length - 1) 0 ++ [mp]))
        (none, least) := by
  have hcond : ¬ least < p + (selectButtons m bs cur).2.2 := by rw [hsel]; exact h
  have h22 : (selectButtons m bs cur).2.2 = mp := by rw [hsel]
  have h21 : (selectButtons m bs cur).2.1 = rem := by rw [hsel]
  have h1 : (selectButtons m bs cur).1 = b1 :: b2 :: tl := by rw [hsel]
  conv_lhs => unfold searchJoltageU
  rw [if_neg hcond]
  split
  · rename_i heq hhe
    rw [hsel] at heq
    simp at heq
  · rename_i heq hhe
    rw [hsel] at heq
    simp at heq
  · rw [h1, h21, h22]

theorem numValidButtons_le (m : Machine) (bs : List Button) (cur : List Nat)
    (pos : Nat) : numValidButtons m bs cur pos ≤ bs.length :=
  List.length_filter_le _ _

theorem length_filter_and_le (p q : Button → Bool) (l : List Button) :
    (l.filter (fun b => p b && q b)).length ≤ (l.filter p).length := by
  induction l with
  | nil => exact Nat.le_refl _
  | cons a t ih =>
    simp only [List.filter_cons]
    by_cases hp : p a
    · rw [if_pos hp]
      by_cases hq : q a
      · rw [if_pos (show (p a && q a) = true by rw [hp, hq]; rfl)]
        simp only [List.length_cons]
        omega
      · rw [if_neg (show ¬ (p a && q a) = true by simp [hq])]
        simp only [List.length_cons]
        omega
    · rw [if_neg hp, if_neg (show ¬ (p a && q a) = true by simp [hp])]
      exact ih

theorem numValidButtons_le_sel (m : Machine) (bs : List Button) (cur : List Nat)
    (pos : Nat) :
    numValidButtons m bs cur pos ≤ (bs.filter (fun b => b.contains pos)).length :=
  length_filter_and_le _ _ bs

theorem applyCountsU_single (cur : List Nat) (b : Button) (d : Nat) :
    applyCountsU cur [b] [d] = pushButtonJoltageU cur b d := rfl

/-- Full specification of `search_joltage`.
(1) soundness: a returned value is `presses` plus the total of a genuine
solution from the current state, and never exceeds the `least_presses` bound
at entry; (2) the bound only decreases, and only to such values; (3)
completeness: when the buttons have no duplicate indices (and the machine is
of realistic size), the minimum reachable total within the bound is returned
exactly. -/
theorem searchJoltageU_spec (bs : List Button) (m : Machine) (cur : List Nat)
    (p least : Nat) (hcur : cur.length = m.joltage.length) :
    (∀ r, (searchJoltageU m cur bs p least).1 = some r →
        (∃ t ∈ extTotals m cur bs, r = p + t) ∧ r ≤ least) ∧
    ((searchJoltageU m cur bs p least).2 ≤ least ∧
      ((searchJoltageU m cur bs p least).2 < least →
        ∃ t ∈ extTotals m cur bs, (searchJoltageU m cur bs p least).2 = p + t)) ∧
    ((∀ b ∈ bs, b.Nodup) → bs.length < USIZE_MAX → m.joltage.length < USIZE_MAX →
      ∀ tmin, IsLeast (extTotals m cur bs) tmin → p + tmin ≤ least →
        (searchJoltageU m cur bs p least).1 = some (p + tmin)) := by
  rcases selectButtons_spec m bs cur with ⟨hsel_eq, hno⟩ | ⟨lp, hlp, hnv, hunsat, hsel_eq⟩
  · -- no position has a valid candidate button
    by_cases hpr : least < p + 0
    · rw [searchJoltageU_prune m cur bs p least [] bs 0 hsel_eq hpr]
      refine ⟨fun r hr => by simp at hr,
        ⟨Nat.le_refl _, fun hlt => absurd hlt (lt_irrefl _)⟩, ?_⟩
      intro _ _ _ tmin _ hple
      exfalso
      omega
    · cases heval : evaluateJoltage m cur with
      | hit =>
        rw [searchJoltageU_noSel_hit m cur bs p least bs 0 hsel_eq hpr heval]
        have h0mem := zero_mem_extTotals_of_hit m cur bs heval
        refine ⟨?_, ⟨Nat.le_refl _, fun hlt => absurd hlt (lt_irrefl _)⟩, ?_⟩
        · intro r hr
          have hpr' : p = r := Option.some.inj hr
          exact ⟨⟨0, h0mem, by omega⟩, by omega⟩
        · intro _ _ _ tmin htmin _
          have ht0 : tmin = 0 := Nat.le_antisymm (htmin.2 h0mem) (Nat.zero_le _)
          show some p = some (p + tmin)
          simp [ht0]
      | incomplete =>
        rw [searchJoltageU_noSel_incomplete m cur bs p least bs 0 hsel_eq hpr heval]
        refine ⟨fun r hr => by simp at hr,
          ⟨Nat.le_refl _, fun hlt => absurd hlt (lt_irrefl _)⟩, ?_⟩
        intro _ hbs hjl tmin htmin _
        exfalso
        have hall : ∀ pos < m.joltage.length, numValidButtons m bs cur pos = 0 := by
          intro pos hpos
          have hcount := hno (le_of_lt hjl) pos hpos
          have hle2 := numValidButtons_le m bs cur pos
          by_contra hnz
          exact hcount ⟨Nat.pos_of_ne_zero hnz, lt_of_le_of_lt hle2 hbs⟩
        have hempty := extTotals_empty_of_no_candidates m bs cur hcur hall heval
        rw [hempty] at htmin
        exact htmin.1
      | invalid =>
        rw [searchJoltageU_noSel_invalid m cur bs p least bs 0 hsel_eq hpr heval]
        refine ⟨fun r hr => by simp at hr,
          ⟨Nat.le_refl _, fun hlt => absurd hlt (lt_irrefl _)⟩, ?_⟩
        intro _ _ _ tmin htmin _
        exfalso
        have hempty := extTotals_empty_of_invalid m cur bs heval
        rw [hempty] at htmin
        exact htmin.1
  · -- a position lp was selected; the buttons are partitioned around it
    revert hsel_eq
    generalize hSel : bs.filter (fun b => b.contains lp) = sel
    generalize hRem : bs.filter (fun b => !(b.contains lp)) = rem
    generalize hMp : m.joltage.getD lp 0 - cur.getD lp 0 = mp
    intro hsel_eq
    have hremsub : ∀ b ∈ rem, b ∈ bs := by
      rw [← hRem]
      exact fun b hb => (List.mem_filter.mp hb).1
    by_cases hpr : least < p + mp
    · rw [searchJoltageU_prune m cur bs p least sel rem mp hsel_eq hpr]
      refine ⟨fun r hr => by simp at hr,
        ⟨Nat.le_refl _, fun hlt => absurd hlt (lt_irrefl _)⟩, ?_⟩
      intro hnd _ _ tmin htmin hple
      exfalso
      have hlb := extTotals_lower_bound m cur bs lp hcur hlp hnd tmin htmin.1
      rw [hMp] at hlb
      omega
    · have hselne : sel ≠ [] := by
        intro h0
        have hle2 := numValidButtons_le_sel m bs cur lp
        rw [hSel, h0] at hle2
        simp at hle2
        omega
      have hlen := selectButtons_lengths m bs cur
      rw [hsel_eq] at hlen
      simp only at hlen
      cases sel with
      | nil => exact absurd rfl hselne
      | cons b1 tl1 =>
        cases tl1 with
        | nil =>
          -- exactly one button can still reach lp
          have hdec : rem.length < bs.length := by
            simp only [List.length_cons, List.length_nil] at hlen
            omega
          rw [searchJoltageU_single m cur bs p least b1 rem mp hsel_eq hpr]
          have hcur' : (pushButtonJoltageU cur b1 mp).length = m.joltage.length := by
            rw [pushButtonJoltageU_length]; exact hcur
          obtain ⟨SP1, SP2, SP3⟩ :=
            searchJoltageU_spec rem m (pushButtonJoltageU cur b1 mp) (p + mp) least hcur'
          have hcompose : ∀ t', t' ∈ extTotals m (pushButtonJoltageU cur b1 mp) rem →
              (mp + t') ∈ extTotals m cur bs := by
            rintro t' ⟨es, hsol, hsum⟩
            have hds : ([mp] : List Nat).length
                = (bs.filter (fun b => b.contains lp)).length := by
              rw [hSel]
              rfl
            have hsol' : IsSol m
                (applyCountsU cur (bs.filter (fun b => b.contains lp)) [mp])
                (bs.filter (fun b => !(b.contains lp))) es := by
              rw [hSel, hRem]
              exact hsol
            have hmem := extTotals_compose m cur bs lp hcur [mp] es hds hsol'
            simp only [List.sum_cons, List.sum_nil, Nat.add_zero] at hmem
            rw [← hsum]
            exact hmem
          refine ⟨?_, ?_, ?_⟩
          · intro r hr
            obtain ⟨⟨t', ht', hreq⟩, hrle⟩ := SP1 r hr
            exact ⟨⟨mp + t', hcompose t' ht', by omega⟩, hrle⟩
          · refine ⟨SP2.1, fun hlt => ?_⟩
            obtain ⟨t', ht', heq⟩ := SP2.2 hlt
            exact ⟨mp + t', hcompose t' ht', by omega⟩
          · intro hnd hbs hjl tmin htmin hple
            have hnd' : ∀ b ∈ rem, b.Nodup := fun b hb => hnd b (hremsub b hb)
            have hbs' : rem.length < USIZE_MAX := by omega
            obtain ⟨ds, es, hd, hdsum, hsol, hteq⟩ :=
              extTotals_decompose m cur bs lp hcur hlp hnd tmin htmin.1
            rw [hMp] at hdsum
            rw [hSel] at hd
            have hds1 : ds = [mp] := by
              cases ds with
              | nil => cases hd
              | cons d0 ds' =>
                cases ds' with
                | nil =>
                  simp only [List.sum_cons, List.sum_nil, Nat.add_zero] at hdsum
                  rw [hdsum]
                | cons d1 ds'' => cases hd
            rw [hds1] at hsol hteq
            rw [hSel, hRem] at hsol
            simp only [List.sum_cons, List.sum_nil, Nat.add_zero] at hteq
            have hmemsub : (tmin - mp) ∈ extTotals m (pushButtonJoltageU cur b1 mp) rem :=
              ⟨es, hsol, by omega⟩
            have hIsLeast : IsLeast (extTotals m (pushButtonJoltageU cur b1 mp) rem)
                (tmin - mp) := by
              refine ⟨hmemsub, fun t' ht' => ?_⟩
              have := htmin.2 (hcompose t' ht')
              omega
            have hple' : (p + mp) + (tmin - mp) ≤ least := by omega
            have := SP3 hnd' hbs' hjl (tmin - mp) hIsLeast hple'
            have heq : (p + mp) + (tmin - mp) = p + tmin := by omega
            rw [heq] at this
            exact this
        | cons b2 tl2 =>
          -- at least two candidate buttons: the combination loop runs
          have hdec : rem.length < bs.length := by
            simp only [List.length_cons] at hlen
            omega
          rw [searchJoltageU_multi m cur bs p least b1 b2 tl2 rem mp hsel_eq hpr]
          have hmp1 : 1 ≤ mp := by omega
          have HL : ∀ d ∈ comboSeq
              (List.replicate ((b1 :: b2 :: tl2).length - 1) 0 ++ [mp]),
              d.length = (b1 :: b2 :: tl2).length ∧ d.sum = mp := by
            intro d hd
            obtain ⟨hs1, hs2⟩ := comboSeq_mem_facts _ d hd
            constructor
            · rw [hs2]
              simp
            · rw [hs1]
              simp [List.sum_append, List.sum_replicate]
          have Hrec_sound : ∀ cur' least' r, cur'.length = m.joltage.length →
              (searchJoltageU m cur' rem (p + mp) least').1 = some r →
              (∃ t ∈ extTotals m cur' rem, r = (p + mp) + t) ∧ r ≤ least' := by
            intro cur' least' r hlen' hr
            exact (searchJoltageU_spec rem m cur' (p + mp) least' hlen').1 r hr
          have Hrec_least : ∀ cur' least', cur'.length = m.joltage.length →
              (searchJoltageU m cur' rem (p + mp) least').2 ≤ least' ∧
              ((searchJoltageU m cur' rem (p + mp) least').2 < least' →
                ∃ t ∈ extTotals m cur' rem,
                  (searchJoltageU m cur' rem (p + mp) least').2 = (p + mp) + t) := by
            intro cur' least' hlen'
            exact (searchJoltageU_spec rem m cur' (p + mp) least' hlen').2.1
          have Hcomp : ∀ d t', d.length = (b1 :: b2 :: tl2).length →
              t' ∈ extTotals m (applyCountsU cur (b1 :: b2 :: tl2) d) rem →
              (d.sum + t') ∈ extTotals m cur bs := by
            rintro d t' hdl ⟨es, hsol, hsum⟩
            have hds : d.length = (bs.filter (fun b => b.contains lp)).length := by
              rw [hSel]; exact hdl
            have hsol' : IsSol m
                (applyCountsU cur (bs.filter (fun b => b.contains lp)) d)
                (bs.filter (fun b => !(b.contains lp))) es := by
              rw [hSel, hRem]
              exact hsol
            have hmem := extTotals_compose m cur bs lp hcur d es hds hsol'
            rw [← hsum]
            exact hmem
          have hbest0 : ∀ bv, (none : Option Nat) = some bv →
              (∃ t ∈ extTotals m cur bs, bv = p + t) ∧ bv ≤ least := by
            intro bv hbv
            cases hbv
          obtain ⟨F1, F2, F3⟩ := comboFoldU_spec m (b1 :: b2 :: tl2) rem cur p mp least
            (fun cur' least' => searchJoltageU m cur' rem (p + mp) least')
            (extTotals m cur bs) hcur (by omega) Hrec_sound Hrec_least Hcomp
            (comboSeq (List.replicate ((b1 :: b2 :: tl2).length - 1) 0 ++ [mp]))
            none least HL (Nat.le_refl _) hbest0
          refine ⟨F1, ⟨F2, F3⟩, ?_⟩
          intro hnd hbs hjl tmin htmin hple
          have hnd' : ∀ b ∈ rem, b.Nodup := fun b hb => hnd b (hremsub b hb)
          have hbs' : rem.length < USIZE_MAX := by omega
          have Hrec_complete : ∀ cur' least' t', cur'.length = m.joltage.length →
              IsLeast (extTotals m cur' rem) t' → (p + mp) + t' ≤ least' →
              (searchJoltageU m cur' rem (p + mp) least').1 = some ((p + mp) + t') := by
            intro cur' least' t' hlen' hleast' hple'
            exact (searchJoltageU_spec rem m cur' (p + mp) least' hlen').2.2
              hnd' hbs' hjl t' hleast' hple'
          obtain ⟨ds, es, hd, hdsum, hsol, hteq⟩ :=
            extTotals_decompose m cur bs lp hcur hlp hnd tmin htmin.1
          rw [hMp] at hdsum
          rw [hSel] at hd
          rw [hSel, hRem] at hsol
          have hdmem : ds ∈ comboSeq
              (List.replicate ((b1 :: b2 :: tl2).length - 1) 0 ++ [mp]) := by
            apply comboSeq_start_complete (b1 :: b2 :: tl2).length mp (by simp) hmp1
              ds hd (by rw [hdsum])
          have hIsLeast : IsLeast
              (extTotals m (applyCountsU cur (b1 :: b2 :: tl2) ds) rem) (tmin - mp) := by
            constructor
            · exact ⟨es, hsol, by omega⟩
            · intro t' ht'
              have := htmin.2 (Hcomp ds t' hd ht')
              rw [hdsum] at this
              omega
          exact comboFoldU_complete m (b1 :: b2 :: tl2) rem cur p mp least
            (fun cur' least' => searchJoltageU m cur' rem (p + mp) least')
            (extTotals m cur bs) hcur (by omega) Hrec_sound Hrec_least Hrec_complete
            Hcomp tmin htmin
            (comboSeq (List.replicate ((b1 :: b2 :: tl2).length - 1) 0 ++ [mp]))
            none least HL (Nat.le_refl _) hbest0 hple
            (Or.inr ⟨ds, hdmem, by omega, hIsLeast⟩)
termination_by bs.length
decreasing_by
  all_goals (simp_wf; simpa using hdec)

/-! ## Characterisation of `best_joltage` -/

theorem bestJoltageU_some (m : Machine) (n : Nat) (h : bestJoltageU m = .ok n) :
    (searchJoltageU m (List.replicate m.joltage.length 0) m.buttons 0 USIZE_MAX).1
      = some n := by
  unfold bestJoltageU at h
  cases hx : (searchJoltageU m (List.replicate m.joltage.length 0) m.buttons 0
      USIZE_MAX).1 with
  | some v =>
    rw [hx] at h
    dsimp only at h
    rw [Except.ok.inj h]
  | none =>
    rw [hx] at h
    dsimp only at h
    cases h

theorem bestJoltageU_of_none (m : Machine)
    (h : (searchJoltageU m (List.replicate m.joltage.length 0) m.buttons 0
      USIZE_MAX).1 = none) :
    bestJoltageU m = .error Error.noSolution := by
  unfold bestJoltageU
  rw [h]

theorem lightUpStep_eq (m : Machine) (lights : List Bool) (step maxSteps : Nat) :
    lightUpStep m lights step maxSteps =
      if h : maxSteps ≤ step then none
      else lightUpLoop m lights step maxSteps m.buttons maxSteps (Nat.le_refl _)
        (Nat.lt_of_not_le h) false := by
  conv_lhs => unfold lightUpStep

theorem lightUpLoop_nil (m : Machine) (lights : List Bool) (step mx uMax : Nat)
    {hu : uMax ≤ mx} {hs : step < mx} (haveSol : Bool) :
    lightUpLoop m lights step mx [] uMax hu hs haveSol =
      if haveSol then some uMax else none := by
  conv_lhs => unfold lightUpLoop

theorem lightUpLoop_cons_hit (m : Machine) (lights : List Bool) (step mx uMax : Nat)
    (b : Button) (rest : List Button) {hu : uMax ≤ mx} {hs : step < mx}
    (haveSol : Bool) (h : pushButtonLight b lights = m.lights) :
    lightUpLoop m lights step mx (b :: rest) uMax hu hs haveSol = some step := by
  conv_lhs => unfold lightUpLoop
  dsimp only
  rw [if_pos h]

theorem lightUpLoop_cons_skip (m : Machine) (lights : List Bool) (step mx uMax : Nat)
    (b : Button) (rest : List Button) {hu : uMax ≤ mx} {hs : step < mx}
    (haveSol : Bool) (h : ¬ pushButtonLight b lights = m.lights)
    (hrec : lightUpStep m (pushButtonLight b lights) (step + 1) uMax = none) :
    lightUpLoop m lights step mx (b :: rest) uMax hu hs haveSol =
      lightUpLoop m lights step mx rest uMax hu hs haveSol := by
  conv_lhs => unfold lightUpLoop
  dsimp only
  rw [if_neg h, hrec]

theorem scanMatches_nil : scanMatches [] = [] := by
  conv_lhs => unfold scanMatches

theorem scanMatches_cons_skip (c : Char) (cs : List Char) (h : ¬ c = '[') :
    scanMatches (c :: cs) = scanMatches cs := by
  conv_lhs => unfold scanMatches
  rw [if_neg h]

theorem scanMatches_cons_none (cs : List Char) (h : matchAfterBracket cs = none) :
    scanMatches ('[' :: cs) = scanMatches cs := by
  conv_lhs => unfold scanMatches
  rw [if_pos rfl]
  split
  · rename_i gs rest heq
    rw [h] at heq
    cases heq
  · rfl

theorem scanMatches_cons_some (cs : List Char) (gs : List Char × List Char × List Char)
    (rest : List Char) (h : matchAfterBracket cs = some (gs, rest)) :
    scanMatches ('[' :: cs) =
      ('[' :: cs.take (cs.length - rest.length), gs) :: scanMatches rest := by
  conv_lhs => unfold scanMatches
  rw [if_pos rfl]
  split
  · rename_i gs' rest' heq
    rw [h] at heq
    simp only [Option.some.injEq, Prod.mk.injEq] at heq
    rw [← heq.1, ← heq.2]
  · rename_i heq
    rw [h] at heq
    cases heq

/-- A text with no opening bracket matches nothing. -/
theorem scanMatches_no_lb (l : List Char) (h : Char.ofNat 91 ∉ l) :
    scanMatches l = [] := by
  induction l with
  | nil => exact scanMatches_nil
  | cons c cs ih =>
    have hc : ¬ c = '[' := by
      intro hq
      subst hq
      exact h (List.mem_cons_self _ _)
    rw [scanMatches_cons_skip c cs hc]
    exact ih (fun hm => h (List.mem_cons_of_mem c hm))

/-! ## Bridging the claims' set semantics with the code's semantics -/

theorem getD_replicate_zero (n pos : Nat) : (List.replicate n 0).getD pos 0 = 0 := by
  induction n generalizing pos with
  | zero => rfl
  | succ k ih =>
    cases pos with
    | zero => rfl
    | succ q => exact ih q

theorem exceptMapM_error_mem {α β : Type} (f : α → Except Error β) (l : List α)
    (e : Error) (h : l.mapM f = .error e) : ∃ x ∈ l, f x = .error e := by
  induction l with
  | nil =>
    rw [List.mapM_nil] at h
    cases h
  | cons a t ih =>
    rw [List.mapM_cons] at h
    cases hfa : f a with
    | error e' =>
      rw [hfa] at h
      have he : e' = e := Except.error.inj h
      exact ⟨a, List.mem_cons_self _ _, by rw [hfa, he]⟩
    | ok b =>
      rw [hfa] at h
      show ∃ x ∈ a :: t, f x = Except.error e
      cases hft : t.mapM f with
      | error e' =>
        rw [hft] at h
        have he : e' = e := Except.error.inj h
        obtain ⟨x, hx, hfx⟩ := ih (by rw [hft, he])
        exact ⟨x, List.mem_cons_of_mem a hx, hfx⟩
      | ok bs =>
        rw [hft] at h
        cases h

theorem exceptMapM_ok_all {α β : Type} (f : α → Except Error β) (l : List α)
    (ys : List β) (h : l.mapM f = .ok ys) : ∀ x ∈ l, ∃ y, f x = .ok y := by
  induction l generalizing ys with
  | nil => intro x hx; cases hx
  | cons a t ih =>
    rw [List.mapM_cons] at h
    cases hfa : f a with
    | error e' =>
      rw [hfa] at h
      cases h
    | ok b =>
      rw [hfa] at h
      cases hft : t.mapM f with
      | error e' =>
        rw [hft] at h
        cases h
      | ok bs =>
        intro x hx
        rcases List.mem_cons.mp hx with rfl | hx'
        · exact ⟨b, hfa⟩
        · exact ih bs hft x hx'

theorem exceptMapM_ok_of_all {α β : Type} (f : α → Except Error β) (l : List α)
    (h : ∀ x ∈ l, ∃ y, f x = .ok y) : ∃ ys, l.mapM f = .ok ys := by
  induction l with
  | nil => exact ⟨[], by rw [List.mapM_nil]; rfl⟩
  | cons a t ih =>
    obtain ⟨b, hb⟩ := h a (List.mem_cons_self _ _)
    obtain ⟨bs, hbs⟩ := ih (fun x hx => h x (List.mem_cons_of_mem a hx))
    refine ⟨b :: bs, ?_⟩
    rw [List.mapM_cons, hb, hbs]
    rfl

/-! ## Error behaviour of the parser and the parts -/

theorem parseJoltage_error_shape (line g3 : List Char) (e : Error)
    (h : parseJoltage line g3 = .error e) : e = Error.invalidInput (String.mk line) := by
  unfold parseJoltage at h
  obtain ⟨tok, htok, hferr⟩ := exceptMapM_error_mem _ _ _ h
  cases hp : parseUsize tok with
  | some v => rw [hp] at hferr; cases hferr
  | none =>
    rw [hp] at hferr
    dsimp only at hferr
    exact (Except.error.inj hferr).symm

theorem parseButtons_error_shape (line g2 : List Char) (e : Error)
    (h : parseButtons line g2 = .error e) : e = Error.invalidInput (String.mk line) := by
  unfold parseButtons at h
  obtain ⟨tok, htok, hferr⟩ := exceptMapM_error_mem _ _ _ h
  by_cases hlen : 2 ≤ tok.length
  · rw [if_pos hlen] at hferr
    obtain ⟨sN, hsN, hferr2⟩ := exceptMapM_error_mem _ _ _ hferr
    cases hp : parseUsize sN with
    | some v => rw [hp] at hferr2; cases hferr2
    | none =>
      rw [hp] at hferr2
      dsimp only at hferr2
      exact (Except.error.inj hferr2).symm
  · rw [if_neg hlen] at hferr
    exact (Except.error.inj hferr).symm

theorem parseEntry_error_shape (en : List Char × (List Char × List Char × List Char))
    (e : Error) (h : parseEntry en = .error e) :
    e = Error.invalidInput (String.mk en.1) := by
  obtain ⟨line, rawLights, rawButtons, rawJoltages⟩ := en
  unfold parseEntry at h
  dsimp only at h
  cases hj : parseJoltage line rawJoltages with
  | error ej =>
    rw [hj] at h
    have he : ej = e := Except.error.inj h
    rw [← he]
    exact parseJoltage_error_shape _ _ _ hj
  | ok jl =>
    rw [hj] at h
    cases hb : parseButtons line rawButtons with
    | error eb =>
      rw [hb] at h
      have he : eb = e := Except.error.inj h
      rw [← he]
      exact parseButtons_error_shape _ _ _ hb
    | ok btns =>
      rw [hb] at h
      cases h

theorem fromInput_error_shape (input : String) (e : Error)
    (h : fromInput input = .error e) : ∃ l, e = Error.invalidInput l := by
  unfold fromInput at h
  obtain ⟨en, hen, herr⟩ := exceptMapM_error_mem _ _ _ h
  exact ⟨String.mk en.1, parseEntry_error_shape en e herr⟩

theorem fromInput_error_iff (input : String) :
    (∃ e, fromInput input = .error e) ↔
      ∃ en ∈ scanMatches input.data, ∃ e, parseEntry en = .error e := by
  constructor
  · rintro ⟨e, h⟩
    unfold fromInput at h
    obtain ⟨en, hen, herr⟩ := exceptMapM_error_mem _ _ _ h
    exact ⟨en, hen, e, herr⟩
  · rintro ⟨en, hen, e, herr⟩
    cases hf : fromInput input with
    | error eq => exact ⟨eq, rfl⟩
    | ok ms =>
      exfalso
      unfold fromInput at hf
      obtain ⟨y, hy⟩ := exceptMapM_ok_all _ _ _ hf en hen
      rw [herr] at hy
      cases hy

/-! ## Concrete evaluations -/

/-- `light_up` when the starting vector already equals the target. -/
theorem lightUp_allOff (m : Machine)
    (h : List.replicate m.lights.length false = m.lights) :
    lightUp m = .ok 0 := by
  unfold lightUp
  dsimp only
  rw [if_pos h]

/-- `light_up` when the recursive search finds nothing. -/
theorem lightUp_of_none (m : Machine)
    (hne : ¬ List.replicate m.lights.length false = m.lights)
    (h : lightUpStep m (List.replicate m.lights.length false) 1 m.lights.length
      = none) :
    lightUp m = .error Error.noSolution := by
  unfold lightUp
  dsimp only
  rw [if_neg hne, h]

/-- The spec scenario `[##]`, buttons `(0) (1)`: the code's depth bound
`max_steps = lights.len() = 2` rejects the 2-press solution. -/
theorem lightUp_scenario_eval :
    lightUp ⟨[true, true], [[0], [1]], []⟩ = .error Error.noSolution := by
  have hg0 : lightUpStep ⟨[true, true], [[0], [1]], []⟩ [true, false] 2 2 = none := by
    rw [lightUpStep_eq, dif_pos (by decide : (2 : Nat) ≤ 2)]
  have hg1 : lightUpStep ⟨[true, true], [[0], [1]], []⟩ [false, true] 2 2 = none := by
    rw [lightUpStep_eq, dif_pos (by decide : (2 : Nat) ≤ 2)]
  have hstep : lightUpStep ⟨[true, true], [[0], [1]], []⟩ [false, false] 1 2 = none := by
    rw [lightUpStep_eq, dif_neg (by decide : ¬ (2 : Nat) ≤ 1)]
    dsimp only
    rw [lightUpLoop_cons_skip ⟨[true, true], [[0], [1]], []⟩ [false, false] 1 2 2
      [0] [[1]] false (by decide) hg0]
    rw [lightUpLoop_cons_skip ⟨[true, true], [[0], [1]], []⟩ [false, false] 1 2 2
      [1] [] false (by decide) hg1]
    rw [lightUpLoop_nil ⟨[true, true], [[0], [1]], []⟩ [false, false] 1 2 2 false]
    rfl
  apply lightUp_of_none
  · decide
  · exact hstep

theorem matchParen_eval :
    matchAfterBracket "#] () {1}".data
      = some (("#".data, "()".data, "1".data), []) := by rfl

theorem scanParen_eval :
    scanMatches "[#] () {1}".data
      = [("[#] () {1}".data, ("#".data, "()".data, "1".data))] := by
  rw [show "[#] () {1}".data = Char.ofNat 91 :: "#] () {1}".data from rfl]
  rw [scanMatches_cons_some _ _ _ matchParen_eval, scanMatches_nil]
  rfl

theorem fromInput_skipped_eval : fromInput "[#] x {1}" = .ok [] := by
  unfold fromInput
  have hscan : scanMatches "[#] x {1}".data = [] := by
    rw [show "[#] x {1}".data = Char.ofNat 91 :: "#] x {1}".data from rfl]
    rw [scanMatches_cons_none _ (by rfl)]
    exact scanMatches_no_lb _ (by decide)
  rw [hscan]
  rfl

/-! ## The claims -/

/-- C3 (code bug): the spec's scenario expects `light_up` to answer 2 for the
machine with light target `[##]` and buttons `(0) (1)`, reached by pressing
both buttons (second conjunct), but the code returns `NoSolution`:
`light_up_step` stops at `step == max_steps` with `max_steps` equal to
`lights.len() = 2`, so no 2-press path is ever evaluated. -/
theorem claim3_light_scenario_code_bug :
    lightUp ⟨[true, true], [[0], [1]], []⟩ = .error Error.noSolution ∧
    pushButtonLight [1] (pushButtonLight [0] (List.replicate 2 false))
      = [true, true] :=
  ⟨lightUp_scenario_eval, rfl⟩

/-- C4 (corrected): every error `from_input` produces is an `InvalidInput`,
and the whole parse fails exactly when some block *matched by the regex*
fails to parse (no partial results in that case).  The original claim fails
for malformed blocks the regex does not match at all: those are silently
skipped, see the counterexample. -/
theorem claim4_from_input_errors (input : String) :
    (∀ e, fromInput input = .error e → ∃ l, e = Error.invalidInput l) ∧
    ((∃ e, fromInput input = .error e) ↔
      ∃ en ∈ scanMatches input.data, ∃ e, parseEntry en = .error e) :=
  ⟨fromInput_error_shape input, fromInput_error_iff input⟩

theorem claim4_witness : ∃ e, fromInput "[#] () {1}" = .error e := by
  apply (claim4_from_input_errors "[#] () {1}").2.mpr
  refine ⟨("[#] () {1}".data, ("#".data, "()".data, "1".data)), ?_, ?_⟩
  · rw [scanParen_eval]
    exact List.mem_cons_self _ _
  · exact ⟨Error.invalidInput "[#] () {1}", rfl⟩

theorem claim4_counterexample : fromInput "[#] x {1}" = .ok [] :=
  fromInput_skipped_eval

/-- C5: on every machine whose light target is all-off, `light_up` answers 0
immediately (the start vector already equals the target), whatever the
buttons. -/
theorem claim5_all_off (m : Machine) (h : ∀ l ∈ m.lights, l = false) :
    lightUp m = .ok 0 := by
  apply lightUp_allOff
  exact (List.eq_replicate_of_mem h).symm

theorem claim5_witness :
    (∀ l ∈ (⟨[false, false], [[0, 1]], []⟩ : Machine).lights, l = false) ∧
    lightUp ⟨[false, false], [[0, 1]], []⟩ = .ok 0 :=
  ⟨by decide, claim5_all_off ⟨[false, false], [[0, 1]], []⟩ (by decide)⟩

/-- C7: the combination loop of `search_joltage` starts from `[0, …, 0, m]`
of length `k` and, stepping with `next_combination`, visits every vector of
`k` non-negative integers summing to `m` (stars-and-bars) before the
enumeration stops. -/
theorem claim7_stars_and_bars (k mreq : Nat) (hk : 2 ≤ k) (hm : 1 ≤ mreq)
    (d : List Nat) (hdl : d.length = k) (hds : d.sum = mreq) :
    d ∈ comboSeq (List.replicate (k - 1) 0 ++ [mreq]) :=
  comboSeq_start_complete k mreq (by omega) hm d hdl hds

theorem claim7_witness :
    ([1, 0] : List Nat).length = 2 ∧ ([1, 0] : List Nat).sum = 1 ∧
    [1, 0] ∈ comboSeq (List.replicate 1 0 ++ [1]) :=
  ⟨rfl, rfl, claim7_stars_and_bars 2 1 (by decide) (by decide) [1, 0] rfl rfl⟩

/-- C9: both solvers terminate.  `light_up_step` returns immediately once the
step counter reaches the bound, and every recursive call of `search_joltage`
receives the remaining buttons, strictly fewer than before whenever the
selected set is non-empty (and the selected set is what the recursion is
keyed on). -/
theorem claim9_termination (m : Machine) (lights : List Bool) (step mx : Nat)
    (bs : List Button) (cur : List Nat) :
    (mx ≤ step → lightUpStep m lights step mx = none) ∧
    (∀ sel rem mp, selectButtons m bs cur = (sel, rem, mp) → sel ≠ [] →
      rem.length < bs.length) := by
  constructor
  · intro hle
    rw [lightUpStep_eq, dif_pos hle]
  · intro sel rem mp hsel hne
    have hlen := selectButtons_lengths m bs cur
    rw [hsel] at hlen
    dsimp only at hlen
    cases sel with
    | nil => exact absurd rfl hne
    | cons a t =>
      simp only [List.length_cons] at hlen
      omega

theorem claim9_witness :
    lightUpStep ⟨[true], [[0]], [2]⟩ [false] 2 2 = none ∧
    ([] : List Button).length < ([[0]] : List Button).length :=
  ⟨(claim9_termination ⟨[true], [[0]], [2]⟩ [false] 2 2 [[0]] [0]).1 (by decide),
   (claim9_termination ⟨[true], [[0]], [2]⟩ [false] 2 2 [[0]] [0]).2
     [[0]] [] 2 rfl (by decide)⟩

/-- C10: whenever `select_buttons` selects a non-empty button set, the chosen
position is strictly unsatisfied (the Rust `assert!(target > current)` holds)
and the required amount is at least 1; a combination vector with positive sum
has a rightmost non-zero entry (the `rposition(...).unwrap()` cannot panic),
and `next_combination` preserves the sum, so the loop keeps that invariant. -/
theorem claim10_assert_unwrap_safe (m : Machine) (bs : List Button)
    (cur : List Nat) :
    (∀ sel rem mp, selectButtons m bs cur = (sel, rem, mp) → sel ≠ [] →
      ∃ lp < m.joltage.length, cur.getD lp 0 < m.joltage.getD lp 0 ∧
        mp = m.joltage.getD lp 0 - cur.getD lp 0 ∧ 1 ≤ mp) ∧
    (∀ c : List Nat, 1 ≤ c.sum → (rposNonzero c).isSome = true) ∧
    (∀ c c', nextCombination c = some c' → c'.sum = c.sum) := by
  refine ⟨?_, ?_, fun c c' h => nextCombination_sum c c' h⟩
  · intro sel rem mp hsel hne
    rcases selectButtons_spec m bs cur with ⟨hsel_eq, -⟩ |
      ⟨lp, hlp, hnv, hunsat, hsel_eq⟩
    · rw [hsel_eq] at hsel
      exact absurd (Prod.mk.inj hsel).1.symm hne
    · rw [hsel_eq] at hsel
      have hmp : m.joltage.getD lp 0 - cur.getD lp 0 = mp :=
        (Prod.mk.inj (Prod.mk.inj hsel).2).2
      exact ⟨lp, hlp, hunsat, hmp.symm, by omega⟩
  · intro c hc
    cases hr : rposNonzero c with
    | some i => rfl
    | none =>
      exfalso
      have hz := (rposNonzero_eq_none_iff c).mp hr
      have hzero : c.sum = 0 := List.sum_eq_zero hz
      omega

theorem claim10_witness :
    (∃ lp < (⟨[true], [[0]], [2]⟩ : Machine).joltage.length,
      ([0] : List Nat).getD lp 0 < (⟨[true], [[0]], [2]⟩ : Machine).joltage.getD lp 0 ∧
      2 = (⟨[true], [[0]], [2]⟩ : Machine).joltage.getD lp 0 - ([0] : List Nat).getD lp 0 ∧
      1 ≤ 2) ∧
    (rposNonzero [0, 1]).isSome = true ∧
    ([1, 0] : List Nat).sum = ([0, 1] : List Nat).sum :=
  ⟨(claim10_assert_unwrap_safe ⟨[true], [[0]], [2]⟩ [[0]] [0]).1 [[0]] [] 2 rfl
      (by decide),
   (claim10_assert_unwrap_safe ⟨[true], [[0]], [2]⟩ [[0]] [0]).2.1 [0, 1]
      (by decide),
   (claim10_assert_unwrap_safe ⟨[true], [[0]], [2]⟩ [[0]] [0]).2.2 [0, 1] [1, 0]
      rfl⟩

/-! ## Unfolding equations for the `usize` search, and the no-wrap bridge -/

theorem searchJoltage_prune (m : Machine) (cur : List Nat) (bs : List Button)
    (p least : Nat) (sel rem : List Button) (mp : Nat)
    (hsel : selectButtons m bs cur = (sel, rem, mp))
    (h : least < (p + mp) % 2 ^ 64) :
    searchJoltage m cur bs p least = (none, least) := by
  have hcond : least < (p + (selectButtons m bs cur).2.2) % 2 ^ 64 := by
    rw [hsel]; exact h
  conv_lhs => unfold searchJoltage
  rw [if_pos hcond]

theorem searchJoltage_noSel_hit (m : Machine) (cur : List Nat) (bs : List Button)
    (p least : Nat) (rem : List Button) (mp : Nat)
    (hsel : selectButtons m bs cur = ([], rem, mp))
    (h : ¬ least < (p + mp) % 2 ^ 64)
    (heval : evaluateJoltage m cur = .hit) :
    searchJoltage m cur bs p least = (some p, least) := by
  have hcond : ¬ least < (p + (selectButtons m bs cur).2.2) % 2 ^ 64 := by
    rw [hsel]; exact h
  conv_lhs => unfold searchJoltage
  rw [if_neg hcond]
  split
  · rw [heval]
  · rename_i heq hhe
    rw [hsel] at heq
    simp at heq
  · rename_i heq hhe
    rw [hsel] at heq
    simp at heq

theorem searchJoltage_noSel_incomplete (m : Machine) (cur : List Nat) (bs : List Button)
    (p least : Nat) (rem : List Button) (mp : Nat)
    (hsel : selectButtons m bs cur = ([], rem, mp))
    (h : ¬ least < (p + mp) % 2 ^ 64)
    (heval : evaluateJoltage m cur = .incomplete) :
    searchJoltage m cur bs p least = (none, least) := by
  have hcond : ¬ least < (p + (selectButtons m bs cur).2.2) % 2 ^ 64 := by
    rw [hsel]; exact h
  conv_lhs => unfold searchJoltage
  rw [if_neg hcond]
  split
  · rw [heval]
  · rename_i heq hhe
    rw [hsel] at heq
    simp at heq
  · rename_i heq hhe
    rw [hsel] at heq
    simp at heq

theorem searchJoltage_noSel_invalid (m : Machine) (cur : List Nat) (bs : List Button)
    (p least : Nat) (rem : List Button) (mp : Nat)
    (hsel : selectButtons m bs cur = ([], rem, mp))
    (h : ¬ least < (p + mp) % 2 ^ 64)
    (heval : evaluateJoltage m cur = .invalid) :
    searchJoltage m cur bs p least = (none, least) := by
  have hcond : ¬ least < (p + (selectButtons m bs cur).2.2) % 2 ^ 64 := by
    rw [hsel]; exact h
  conv_lhs => unfold searchJoltage
  rw [if_neg hcond]
  split
  · rw [heval]
  · rename_i heq hhe
    rw [hsel] at heq
    simp at heq
  · rename_i heq hhe
    rw [hsel] at heq
    simp at heq

theorem searchJoltage_single (m : Machine) (cur : List Nat) (bs : List Button)
    (p least : Nat) (b : Button) (rem : List Button) (mp : Nat)
    (hsel : selectButtons m bs cur = ([b], rem, mp))
    (h : ¬ least < (p + mp) % 2 ^ 64) :
    searchJoltage m cur bs p least =
      searchJoltage m (pushButtonJoltage cur b mp) rem ((p + mp) % 2 ^ 64) least := by
  have hcond : ¬ least < (p + (selectButtons m bs cur).2.2) % 2 ^ 64 := by
    rw [hsel]; exact h
  have h22 : (selectButtons m bs cur).2.2 = mp := by rw [hsel]
  have h21 : (selectButtons m bs cur).2.1 = rem := by rw [hsel]
  conv_lhs => unfold searchJoltage
  rw [if_neg hcond]
  split
  · rename_i heq hhe
    rw [hsel] at heq
    simp at heq
  · rename_i heq hhe
    rw [hsel] at heq
    simp only [List.cons.injEq, and_true] at heq
    subst heq
    rw [h21, h22]
  · rename_i heq hhe
    rw [hsel] at heq
    simp at heq

theorem searchJoltage_multi (m : Machine) (cur : List Nat) (bs : List Button)
    (p least : Nat) (b1 b2 : Button) (tl rem : List Button) (mp : Nat)
    (hsel : selectButtons m bs cur = (b1 :: b2 :: tl, rem, mp))
    (h : ¬ least < (p + mp) % 2 ^ 64) :
    searchJoltage m cur bs p least =
      comboFold m (b1 :: b2 :: tl) cur p mp
        (fun cur' least' => searchJoltage m cur' rem ((p + mp) % 2 ^ 64) least')
        (comboSeq (List.replicate ((b1 :: b2 :: tl).length - 1) 0 ++ [mp]))
        (none, least) := by
  have hcond : ¬ least < (p + (selectButtons m bs cur).2.2) % 2 ^ 64 := by
    rw [hsel]; exact h
  have h22 : (selectButtons m bs cur).2.2 = mp := by rw [hsel]
  have h21 : (selectButtons m bs cur).2.1 = rem := by rw [hsel]
  have h1 : (selectButtons m bs cur).1 = b1 :: b2 :: tl := by rw [hsel]
  conv_lhs => unfold searchJoltage
  rw [if_neg hcond]
  split
  · rename_i heq hhe
    rw [hsel] at heq
    simp at heq
  · rename_i heq hhe
    rw [hsel] at heq
    simp at heq
  · rw [h1, h21, h22]

theorem comboFold_nil (m : Machine) (sel : List Button) (cur : List Nat)
    (p mp : Nat) (recur : List Nat → Nat → Option Nat × Nat)
    (st : Option Nat × Nat) :
    comboFold m sel cur p mp recur [] st = st := rfl

theorem comboFold_cons (m : Machine) (sel : List Button) (cur : List Nat)
    (p mp : Nat) (recur : List Nat → Nat → Option Nat × Nat)
    (d : List Nat) (L : List (List Nat)) (best : Option Nat) (least : Nat) :
    comboFold m sel cur p mp recur (d :: L) (best, least) =
      (match evaluateJoltage m (applyCounts cur sel d) with
       | .hit =>
         (match best with
          | none => comboFold m sel cur p mp recur L
              (some ((p + mp) % 2 ^ 64),
                if (p + mp) % 2 ^ 64 < least then (p + mp) % 2 ^ 64 else least)
          | some b =>
            if (p + mp) % 2 ^ 64 < b then
              comboFold m sel cur p mp recur L
                (some ((p + mp) % 2 ^ 64),
                  if (p + mp) % 2 ^ 64 < least then (p + mp) % 2 ^ 64 else least)
            else comboFold m sel cur p mp recur L (some b, least))
       | .incomplete =>
         (match recur (applyCounts cur sel d) least with
          | (none, least') => comboFold m sel cur p mp recur L (best, least')
          | (some rv, least') =>
            (match best with
             | none => comboFold m sel cur p mp recur L
                 (some rv, if rv < least' then rv else least')
             | some b =>
               if rv < b then
                 comboFold m sel cur p mp recur L
                   (some rv, if rv < least' then rv else least')
               else comboFold m sel cur p mp recur L (some b, least')))
       | .invalid => comboFold m sel cur p mp recur L (best, least)) := rfl

theorem getD_set_le (j : List Nat) (p v pos : Nat) :
    (j.set p v).getD pos 0 ≤ max v (j.getD pos 0) := by
  by_cases hp : p = pos
  · subst hp
    by_cases hlen : p < j.length
    · rw [List.getD_eq_getElem?_getD, List.getElem?_set_self hlen, Option.getD_some]
      exact le_max_left _ _
    · rw [List.set_eq_of_length_le (le_of_not_lt hlen)]
      exact le_max_right _ _
  · rw [List.getD_eq_getElem?_getD, List.getElem?_set_ne hp,
      ← List.getD_eq_getElem?_getD]
    exact le_max_right _ _

/-- While each touched entry stays below `2 ^ 64`, the `usize` push equals the
idealized one. -/
theorem pushButtonJoltage_eq_U (j : List Nat) (b : Button) (c : Nat)
    (h : ∀ pos, j.getD pos 0 + c * b.length < 2 ^ 64) :
    pushButtonJoltage j b c = pushButtonJoltageU j b c := by
  induction b generalizing j with
  | nil => rfl
  | cons p ps ih =>
    have hb : j.getD p 0 + c < 2 ^ 64 := by
      have h1 := h p
      have hc : c * 1 ≤ c * (ps.length + 1) :=
        Nat.mul_le_mul (Nat.le_refl c) (by omega)
      simp only [List.length_cons] at h1
      omega
    show pushButtonJoltage (j.set p ((j.getD p 0 + c) % 2 ^ 64)) ps c
        = pushButtonJoltageU (j.set p (j.getD p 0 + c)) ps c
    rw [Nat.mod_eq_of_lt hb]
    apply ih
    intro pos
    have hle := getD_set_le j p (j.getD p 0 + c) pos
    have hmax : max (j.getD p 0 + c) (j.getD pos 0) + c * ps.length < 2 ^ 64 := by
      have h2 := h p
      have h3 := h pos
      simp only [List.length_cons] at h2 h3
      have e1 : c * (ps.length + 1) = c * ps.length + c := by ring
      rcases max_cases (j.getD p 0 + c) (j.getD pos 0) with ⟨heq, -⟩ | ⟨heq, -⟩ <;>
        rw [heq] <;> omega
    omega

/-- The accumulated amount of a combination is bounded by its total presses
times the longest button. -/
theorem addVec_le_bound (sel : List Button) (ds : List Nat) (pos : Nat) (Lb : Nat)
    (hL : ∀ b ∈ sel, b.length ≤ Lb) :
    addVec sel ds pos ≤ ds.sum * Lb := by
  induction sel generalizing ds with
  | nil => cases ds <;> exact Nat.zero_le _
  | cons b bs ih =>
    cases ds with
    | nil => exact Nat.zero_le _
    | cons c cs =>
      show c * b.count pos + addVec bs cs pos ≤ (c :: cs).sum * Lb
      have h1 : b.count pos ≤ Lb :=
        le_trans (List.count_le_length _ _) (hL b (List.mem_cons_self _ _))
      have h2 := ih cs (fun x hx => hL x (List.mem_cons_of_mem _ hx))
      have h3 : c * b.count pos ≤ c * Lb := Nat.mul_le_mul (Nat.le_refl c) h1
      have h4 : (c :: cs).sum * Lb = c * Lb + cs.sum * Lb := by
        rw [List.sum_cons]; ring
      omega

/-- While every touched entry stays below `2 ^ 64`, applying the counts in
`usize` equals the idealized application. -/
theorem applyCounts_eq_U (sel : List Button) (cur : List Nat) (ds : List Nat)
    (Lb : Nat) (hL : ∀ b ∈ sel, b.length ≤ Lb)
    (hcur : ∀ pos, cur.getD pos 0 + ds.sum * Lb < 2 ^ 64) :
    applyCounts cur sel ds = applyCountsU cur sel ds := by
  induction sel generalizing cur ds with
  | nil => cases ds <;> rfl
  | cons b bs ih =>
    cases ds with
    | nil => rfl
    | cons c cs =>
      have hbl : b.length ≤ Lb := hL b (List.mem_cons_self _ _)
      have hpush : pushButtonJoltage cur b c = pushButtonJoltageU cur b c := by
        apply pushButtonJoltage_eq_U
        intro pos
        have h1 := hcur pos
        have h2 : c * b.length ≤ c * Lb := Nat.mul_le_mul (Nat.le_refl c) hbl
        have h3 : (c :: cs).sum * Lb = c * Lb + cs.sum * Lb := by
          rw [List.sum_cons]; ring
        omega
      show applyCounts (pushButtonJoltage cur b c) bs cs
          = applyCountsU (pushButtonJoltageU cur b c) bs cs
      rw [hpush]
      apply ih _ _ (fun x hx => hL x (List.mem_cons_of_mem _ hx))
      intro pos
      by_cases hpos : pos < cur.length
      · rw [pushButtonJoltageU_getD cur b c pos hpos]
        have h1 := hcur pos
        have hcnt : b.count pos ≤ Lb := le_trans (List.count_le_length _ _) hbl
        have h2 : c * b.count pos ≤ c * Lb := Nat.mul_le_mul (Nat.le_refl c) hcnt
        have h3 : (c :: cs).sum * Lb = c * Lb + cs.sum * Lb := by
          rw [List.sum_cons]; ring
        omega
      · rw [List.getD_eq_default _ _ (by rw [pushButtonJoltageU_length]; omega)]
        have h1 := hcur pos
        have h3 : (c :: cs).sum * Lb = c * Lb + cs.sum * Lb := by
          rw [List.sum_cons]; ring
        omega

/-- While no wrap can occur, the `usize` combination loop equals the
idealized one (given that the recursive calls agree on the reachable
states). -/
theorem comboFold_eq_U (m : Machine) (sel : List Button) (cur : List Nat)
    (p mp Lb : Nat) (recurW recurU : List Nat → Nat → Option Nat × Nat)
    (hpmp : p + mp < 2 ^ 64)
    (hLsel : ∀ b ∈ sel, b.length ≤ Lb)
    (hcur : ∀ pos, cur.getD pos 0 + mp * Lb < 2 ^ 64)
    (hrec : ∀ cur' least', (∀ pos, cur'.getD pos 0 ≤ cur.getD pos 0 + mp * Lb) →
      recurW cur' least' = recurU cur' least')
    (L : List (List Nat)) :
    (∀ d ∈ L, d.sum = mp) → ∀ st,
      comboFold m sel cur p mp recurW L st = comboFoldU m sel cur p mp recurU L st := by
  induction L with
  | nil =>
    intro _ st
    rfl
  | cons d L ih =>
    intro hL st
    obtain ⟨best, least⟩ := st
    have hdsum := hL d (List.mem_cons_self _ _)
    have happ : applyCounts cur sel d = applyCountsU cur sel d := by
      apply applyCounts_eq_U sel cur d Lb hLsel
      intro pos
      rw [hdsum]
      exact hcur pos
    have hbound : ∀ pos, (applyCountsU cur sel d).getD pos 0
        ≤ cur.getD pos 0 + mp * Lb := by
      intro pos
      by_cases hpos : pos < cur.length
      · rw [applyCountsU_getD cur sel d pos hpos]
        have hav := addVec_le_bound sel d pos Lb hLsel
        rw [hdsum] at hav
        omega
      · rw [List.getD_eq_default _ _ (by rw [applyCountsU_length]; omega)]
        omega
    have hR := hrec (applyCountsU cur sel d) least hbound
    have hL' : ∀ x ∈ L, x.sum = mp := fun x hx => hL x (List.mem_cons_of_mem _ hx)
    rw [comboFold_cons, comboFoldU_cons, happ, hR, Nat.mod_eq_of_lt hpmp]
    cases evaluateJoltage m (applyCountsU cur sel d) with
    | hit =>
      cases best with
      | none => exact ih hL' _
      | some b =>
        dsimp only
        split
        · exact ih hL' _
        · exact ih hL' _
    | incomplete =>
      dsimp only
      cases hru : recurU (applyCountsU cur sel d) least with
      | mk r l' =>
        cases r with
        | none => exact ih hL' _
        | some rv =>
          cases best with
          | none => exact ih hL' _
          | some b =>
            dsimp only
            split
            · exact ih hL' _
            · exact ih hL' _
    | invalid => exact ih hL' _

/-- The bridge: on a machine whose joltage entries are at most `J` and whose
remaining buttons are at most `Lb` long, with the accumulator and press
counter far enough from `2 ^ 64`, the `usize` search never wraps and equals
the idealized search. -/
theorem searchJoltage_eq_U (bs : List Button) (m : Machine) (cur : List Nat)
    (p least : Nat) (J Lb : Nat)
    (hJ : ∀ pos < m.joltage.length, m.joltage.getD pos 0 ≤ J)
    (hLb : ∀ b ∈ bs, b.length ≤ Lb)
    (hcur : ∀ pos, cur.getD pos 0 + bs.length * (J * Lb) < 2 ^ 64)
    (hp : p + bs.length * J < 2 ^ 64) :
    searchJoltage m cur bs p least = searchJoltageU m cur bs p least := by
  rcases selectButtons_spec m bs cur with ⟨hsel_eq, -⟩ |
    ⟨lp, hlp, hnv, hunsat, hsel_eq⟩
  · have hmod : (p + 0) % 2 ^ 64 = p + 0 := Nat.mod_eq_of_lt (by omega)
    by_cases hpr : least < p + 0
    · rw [searchJoltage_prune m cur bs p least [] bs 0 hsel_eq (by rw [hmod]; exact hpr),
        searchJoltageU_prune m cur bs p least [] bs 0 hsel_eq hpr]
    · have hprW : ¬ least < (p + 0) % 2 ^ 64 := by rw [hmod]; exact hpr
      cases heval : evaluateJoltage m cur with
      | hit =>
        rw [searchJoltage_noSel_hit m cur bs p least bs 0 hsel_eq hprW heval,
          searchJoltageU_noSel_hit m cur bs p least bs 0 hsel_eq hpr heval]
      | incomplete =>
        rw [searchJoltage_noSel_incomplete m cur bs p least bs 0 hsel_eq hprW heval,
          searchJoltageU_noSel_incomplete m cur bs p least bs 0 hsel_eq hpr heval]
      | invalid =>
        rw [searchJoltage_noSel_invalid m cur bs p least bs 0 hsel_eq hprW heval,
          searchJoltageU_noSel_invalid m cur bs p least bs 0 hsel_eq hpr heval]
  · have hbs1 : 1 ≤ bs.length := by
      have := numValidButtons_le m bs cur lp
      omega
    have hmp_le : m.joltage.getD lp 0 - cur.getD lp 0 ≤ J := by
      have := hJ lp hlp
      omega
    revert hsel_eq
    generalize hSel : bs.filter (fun b => b.contains lp) = sel
    generalize hRem : bs.filter (fun b => !(b.contains lp)) = rem
    generalize hMp : m.joltage.getD lp 0 - cur.getD lp 0 = mp
    intro hsel_eq
    have hmpJ : mp ≤ J := by omega
    have hpmp : p + mp < 2 ^ 64 := by
      have h2 : 1 * J ≤ bs.length * J := Nat.mul_le_mul_right _ hbs1
      omega
    have hmod : (p + mp) % 2 ^ 64 = p + mp := Nat.mod_eq_of_lt hpmp
    have hremsub : ∀ b ∈ rem, b ∈ bs := by
      rw [← hRem]
      exact fun b hb => (List.mem_filter.mp hb).1
    have hselsub : ∀ b ∈ sel, b ∈ bs := by
      rw [← hSel]
      exact fun b hb => (List.mem_filter.mp hb).1
    have hLsel : ∀ b ∈ sel, b.length ≤ Lb := fun b hb => hLb b (hselsub b hb)
    have hLrem : ∀ b ∈ rem, b.length ≤ Lb := fun b hb => hLb b (hremsub b hb)
    by_cases hpr : least < p + mp
    · rw [searchJoltage_prune m cur bs p least sel rem mp hsel_eq (by rw [hmod]; exact hpr),
        searchJoltageU_prune m cur bs p least sel rem mp hsel_eq hpr]
    · have hprW : ¬ least < (p + mp) % 2 ^ 64 := by rw [hmod]; exact hpr
      have hselne : sel ≠ [] := by
        intro h0
        have hle2 := numValidButtons_le_sel m bs cur lp
        rw [hSel, h0] at hle2
        simp at hle2
        omega
      have hlen := selectButtons_lengths m bs cur
      rw [hsel_eq] at hlen
      simp only at hlen
      cases sel with
      | nil => exact absurd rfl hselne
      | cons b1 tl1 =>
        cases tl1 with
        | nil =>
          have hdec : rem.length < bs.length := by
            simp only [List.length_cons, List.length_nil] at hlen
            omega
          rw [searchJoltage_single m cur bs p least b1 rem mp hsel_eq hprW,
            searchJoltageU_single m cur bs p least b1 rem mp hsel_eq hpr]
          have hb1L : b1.length ≤ Lb := hLsel b1 (List.mem_cons_self _ _)
          have hpush : pushButtonJoltage cur b1 mp = pushButtonJoltageU cur b1 mp := by
            apply pushButtonJoltage_eq_U
            intro pos
            have h1 := hcur pos
            have h2 : mp * b1.length ≤ J * Lb := Nat.mul_le_mul hmpJ hb1L
            have h3 : 1 * (J * Lb) ≤ bs.length * (J * Lb) := Nat.mul_le_mul_right _ hbs1
            omega
          rw [hpush, hmod]
          apply searchJoltage_eq_U rem m (pushButtonJoltageU cur b1 mp) (p + mp)
            least J Lb hJ hLrem
          · intro pos
            have h1 := hcur pos
            have h4 : rem.length + 1 ≤ bs.length := by omega
            have h5 : J * Lb + rem.length * (J * Lb) ≤ bs.length * (J * Lb) := by
              have h6 : (rem.length + 1) * (J * Lb) ≤ bs.length * (J * Lb) :=
                Nat.mul_le_mul_right _ h4
              have h7 : (rem.length + 1) * (J * Lb)
                  = J * Lb + rem.length * (J * Lb) := by ring
              omega
            by_cases hpos : pos < cur.length
            · rw [pushButtonJoltageU_getD cur b1 mp pos hpos]
              have hcnt : b1.count pos ≤ Lb :=
                le_trans (List.count_le_length _ _) hb1L
              have h2 : mp * b1.count pos ≤ J * Lb := Nat.mul_le_mul hmpJ hcnt
              omega
            · rw [List.getD_eq_default _ _ (by rw [pushButtonJoltageU_length]; omega)]
              omega
          · have h4 : rem.length + 1 ≤ bs.length := by omega
            have h5 : J + rem.length * J ≤ bs.length * J := by
              have h6 : (rem.length + 1) * J ≤ bs.length * J :=
                Nat.mul_le_mul_right _ h4
              have h7 : (rem.length + 1) * J = J + rem.length * J := by ring
              omega
            omega
        | cons b2 tl2 =>
          have hdec : rem.length < bs.length := by
            simp only [List.length_cons] at hlen
            omega
          rw [searchJoltage_multi m cur bs p least b1 b2 tl2 rem mp hsel_eq hprW,
            searchJoltageU_multi m cur bs p least b1 b2 tl2 rem mp hsel_eq hpr]
          have hcur2 : ∀ pos, cur.getD pos 0 + mp * Lb < 2 ^ 64 := by
            intro pos
            have h1 := hcur pos
            have h2 : mp * Lb ≤ J * Lb := Nat.mul_le_mul hmpJ (Nat.le_refl _)
            have h3 : 1 * (J * Lb) ≤ bs.length * (J * Lb) := Nat.mul_le_mul_right _ hbs1
            omega
          have hrec2 : ∀ cur' least',
              (∀ pos, cur'.getD pos 0 ≤ cur.getD pos 0 + mp * Lb) →
              searchJoltage m cur' rem ((p + mp) % 2 ^ 64) least'
                = searchJoltageU m cur' rem (p + mp) least' := by
            intro cur' least' hcb
            rw [hmod]
            apply searchJoltage_eq_U rem m cur' (p + mp) least' J Lb hJ hLrem
            · intro pos
              have h1 := hcur pos
              have h0 := hcb pos
              have h2 : mp * Lb ≤ J * Lb := Nat.mul_le_mul hmpJ (Nat.le_refl _)
              have h4 : rem.length + 1 ≤ bs.length := by omega
              have h5 : J * Lb + rem.length * (J * Lb) ≤ bs.length * (J * Lb) := by
                have h6 : (rem.length + 1) * (J * Lb) ≤ bs.length * (J * Lb) :=
                  Nat.mul_le_mul_right _ h4
                have h7 : (rem.length + 1) * (J * Lb)
                    = J * Lb + rem.length * (J * Lb) := by ring
                omega
              omega
            · have h4 : rem.length + 1 ≤ bs.length := by omega
              have h5 : J + rem.length * J ≤ bs.length * J := by
                have h6 : (rem.length + 1) * J ≤ bs.length * J :=
                  Nat.mul_le_mul_right _ h4
                have h7 : (rem.length + 1) * J = J + rem.length * J := by ring
                omega
              omega
          have hLd : ∀ d ∈ comboSeq
              (List.replicate ((b1 :: b2 :: tl2).length - 1) 0 ++ [mp]),
              d.sum = mp := by
            intro d hd
            obtain ⟨hs1, -⟩ := comboSeq_mem_facts _ d hd
            rw [hs1]
            simp [List.sum_append, List.sum_replicate]
          exact comboFold_eq_U m (b1 :: b2 :: tl2) cur p mp Lb _ _ hpmp hLsel
            hcur2 hrec2 _ hLd (none, least)
termination_by bs.length
decreasing_by
  all_goals (simp_wf; simpa using hdec)

theorem bestJoltage_some (m : Machine) (n : Nat) (h : bestJoltage m = .ok n) :
    (searchJoltage m (List.replicate m.joltage.length 0) m.buttons 0 USIZE_MAX).1
      = some n := by
  unfold bestJoltage at h
  cases hx : (searchJoltage m (List.replicate m.joltage.length 0) m.buttons 0
      USIZE_MAX).1 with
  | some v =>
    rw [hx] at h
    dsimp only at h
    rw [Except.ok.inj h]
  | none =>
    rw [hx] at h
    dsimp only at h
    cases h

theorem bestJoltage_of_some (m : Machine) (n : Nat)
    (h : (searchJoltage m (List.replicate m.joltage.length 0) m.buttons 0
      USIZE_MAX).1 = some n) :
    bestJoltage m = .ok n := by
  unfold bestJoltage
  rw [h]

/-- The machine-level bridge: with every joltage entry at most `J`, every
button at most `Lb` long and the product safely below `2 ^ 64`, `best_joltage`
computes exactly what the idealized search computes. -/
theorem bestJoltage_eq_U (m : Machine) (J Lb : Nat)
    (hJ : ∀ pos < m.joltage.length, m.joltage.getD pos 0 ≤ J)
    (hLb : ∀ b ∈ m.buttons, b.length ≤ Lb)
    (h1 : m.buttons.length * (J * Lb) < 2 ^ 64)
    (h2 : m.buttons.length * J < 2 ^ 64) :
    bestJoltage m = bestJoltageU m := by
  unfold bestJoltage bestJoltageU
  rw [searchJoltage_eq_U m.buttons m (List.replicate m.joltage.length 0) 0
    USIZE_MAX J Lb hJ hLb (fun pos => by rw [getD_replicate_zero]; omega)
    (by omega)]

/-! ## Concrete evaluations of the `usize` search -/

/-- One button on position 0, target 3: three presses. -/
theorem bestJoltage_single3_eval :
    bestJoltage ⟨[true], [[0]], [3]⟩ = .ok 3 := by
  apply bestJoltage_of_some
  show (searchJoltage ⟨[true], [[0]], [3]⟩ [0] [[0]] 0 USIZE_MAX).1 = some 3
  rw [searchJoltage_single ⟨[true], [[0]], [3]⟩ [0] [[0]] 0 USIZE_MAX
    [0] [] 3 rfl (by decide)]
  rw [show pushButtonJoltage [0] [0] 3 = [3] from rfl]
  rw [searchJoltage_noSel_hit ⟨[true], [[0]], [3]⟩ [3] [] ((0 + 3) % 2 ^ 64)
    USIZE_MAX [] 0 rfl (by decide) rfl]
  rfl

/-- Release-mode wrap: on joltage `{5, 2^64 - 3, 7}` with buttons `(0,2)`,
`(1,2)` and `(2)` the search presses `(1,2)` `2^64 - 3` times, position 2
wraps from 5 to 2, and the search then completes to a `Hit` with the wrapped
press counter 7 — although no assignment reaches the targets. -/
theorem bestJoltage_wrap_eval :
    bestJoltage ⟨[true], [[0, 2], [1, 2], [2]], [5, 18446744073709551613, 7]⟩
      = .ok 7 := by
  apply bestJoltage_of_some
  show (searchJoltage ⟨[true], [[0, 2], [1, 2], [2]], [5, 18446744073709551613, 7]⟩
    [0, 0, 0] [[0, 2], [1, 2], [2]] 0 USIZE_MAX).1 = some 7
  rw [searchJoltage_single ⟨[true], [[0, 2], [1, 2], [2]], [5, 18446744073709551613, 7]⟩
    [0, 0, 0] [[0, 2], [1, 2], [2]] 0 USIZE_MAX [0, 2] [[1, 2], [2]] 5 rfl (by decide)]
  rw [show pushButtonJoltage [0, 0, 0] [0, 2] 5 = [5, 0, 5] from rfl]
  rw [show ((0 + 5) % 2 ^ 64 : Nat) = 5 from rfl]
  rw [searchJoltage_single ⟨[true], [[0, 2], [1, 2], [2]], [5, 18446744073709551613, 7]⟩
    [5, 0, 5] [[1, 2], [2]] 5 USIZE_MAX [1, 2] [[2]] 18446744073709551613 rfl
    (by decide)]
  rw [show pushButtonJoltage [5, 0, 5] [1, 2] 18446744073709551613
    = [5, 18446744073709551613, 2] from rfl]
  rw [show ((5 + 18446744073709551613) % 2 ^ 64 : Nat) = 2 from rfl]
  rw [searchJoltage_single ⟨[true], [[0, 2], [1, 2], [2]], [5, 18446744073709551613, 7]⟩
    [5, 18446744073709551613, 2] [[2]] 2 USIZE_MAX [2] [] 5 rfl (by decide)]
  rw [show pushButtonJoltage [5, 18446744073709551613, 2] [2] 5
    = [5, 18446744073709551613, 7] from rfl]
  rw [show ((2 + 5) % 2 ^ 64 : Nat) = 7 from rfl]
  rw [searchJoltage_noSel_hit ⟨[true], [[0, 2], [1, 2], [2]], [5, 18446744073709551613, 7]⟩
    [5, 18446744073709551613, 7] [] 7 USIZE_MAX [] 0 rfl (by decide) rfl]

/-- Release-mode wrap from an overshot state: position 0 of the accumulator
`[2 ^ 64 - 2, 0]` already exceeds its target 5, yet pressing the first and
second button once each adds 7 there, the `usize` value wraps to exactly 5,
`evaluate_joltage` reports a `Hit` and the search returns the press count 2. -/
theorem searchJoltage_overshoot_eval :
    (searchJoltage ⟨[true], [[0, 0, 0, 0, 1], [0, 0, 0, 1], [1]], [5, 2]⟩
      [18446744073709551614, 0] [[0, 0, 0, 0, 1], [0, 0, 0, 1], [1]] 0 USIZE_MAX).1 = some 2 := by
  have hseq : comboSeq ([0, 0, 2] : List Nat)
      = [[0, 0, 2], [0, 1, 1], [0, 2, 0], [1, 0, 1], [1, 1, 0], [2, 0, 0]] := by
    rw [comboSeq_eq_of_some [0, 0, 2] [0, 1, 1] rfl]
    rw [comboSeq_eq_of_some [0, 1, 1] [0, 2, 0] rfl]
    rw [comboSeq_eq_of_some [0, 2, 0] [1, 0, 1] rfl]
    rw [comboSeq_eq_of_some [1, 0, 1] [1, 1, 0] rfl]
    rw [comboSeq_eq_of_some [1, 1, 0] [2, 0, 0] rfl]
    rw [comboSeq_eq_of_none [2, 0, 0] rfl]
  have hr1 : searchJoltage ⟨[true], [[0, 0, 0, 0, 1], [0, 0, 0, 1], [1]], [5, 2]⟩ [1, 2] [] 2 USIZE_MAX = (none, USIZE_MAX) :=
    searchJoltage_noSel_incomplete ⟨[true], [[0, 0, 0, 0, 1], [0, 0, 0, 1], [1]], [5, 2]⟩ [1, 2] [] 2 USIZE_MAX [] 0 rfl (by decide) rfl
  have hr2 : searchJoltage ⟨[true], [[0, 0, 0, 0, 1], [0, 0, 0, 1], [1]], [5, 2]⟩ [4, 2] [] 2 USIZE_MAX = (none, USIZE_MAX) :=
    searchJoltage_noSel_incomplete ⟨[true], [[0, 0, 0, 0, 1], [0, 0, 0, 1], [1]], [5, 2]⟩ [4, 2] [] 2 USIZE_MAX [] 0 rfl (by decide) rfl
  have hr3 : searchJoltage ⟨[true], [[0, 0, 0, 0, 1], [0, 0, 0, 1], [1]], [5, 2]⟩ [2, 2] [] 2 USIZE_MAX = (none, USIZE_MAX) :=
    searchJoltage_noSel_incomplete ⟨[true], [[0, 0, 0, 0, 1], [0, 0, 0, 1], [1]], [5, 2]⟩ [2, 2] [] 2 USIZE_MAX [] 0 rfl (by decide) rfl
  rw [searchJoltage_multi ⟨[true], [[0, 0, 0, 0, 1], [0, 0, 0, 1], [1]], [5, 2]⟩ [18446744073709551614, 0] [[0, 0, 0, 0, 1], [0, 0, 0, 1], [1]] 0 USIZE_MAX
    [0, 0, 0, 0, 1] [0, 0, 0, 1] [[1]] [] 2 rfl (by decide)]
  rw [show ((0 + 2) % 2 ^ 64 : Nat) = 2 from rfl]
  rw [show (List.replicate
      (([0, 0, 0, 0, 1] :: [0, 0, 0, 1] :: [[1]] : List Button).length - 1) 0
      ++ ([2] : List Nat)) = [0, 0, 2] from rfl]
  rw [hseq]
  rw [comboFold_cons,
      show applyCounts [18446744073709551614, 0] [[0, 0, 0, 0, 1], [0, 0, 0, 1], [1]] [0, 0, 2] = [18446744073709551614, 2] from rfl,
      show evaluateJoltage ⟨[true], [[0, 0, 0, 0, 1], [0, 0, 0, 1], [1]], [5, 2]⟩ [18446744073709551614, 2] = .invalid from rfl,
      show ((0 + 2) % 2 ^ 64 : Nat) = 2 from rfl]
  dsimp only
  rw [comboFold_cons,
      show applyCounts [18446744073709551614, 0] [[0, 0, 0, 0, 1], [0, 0, 0, 1], [1]] [0, 1, 1] = [1, 2] from rfl,
      show evaluateJoltage ⟨[true], [[0, 0, 0, 0, 1], [0, 0, 0, 1], [1]], [5, 2]⟩ [1, 2] = .incomplete from rfl,
      show ((0 + 2) % 2 ^ 64 : Nat) = 2 from rfl]
  dsimp only
  rw [hr1]
  dsimp only
  rw [comboFold_cons,
      show applyCounts [18446744073709551614, 0] [[0, 0, 0, 0, 1], [0, 0, 0, 1], [1]] [0, 2, 0] = [4, 2] from rfl,
      show evaluateJoltage ⟨[true], [[0, 0, 0, 0, 1], [0, 0, 0, 1], [1]], [5, 2]⟩ [4, 2] = .incomplete from rfl,
      show ((0 + 2) % 2 ^ 64 : Nat) = 2 from rfl]
  dsimp only
  rw [hr2]
  dsimp only
  rw [comboFold_cons,
      show applyCounts [18446744073709551614, 0] [[0, 0, 0, 0, 1], [0, 0, 0, 1], [1]] [1, 0, 1] = [2, 2] from rfl,
      show evaluateJoltage ⟨[true], [[0, 0, 0, 0, 1], [0, 0, 0, 1], [1]], [5, 2]⟩ [2, 2] = .incomplete from rfl,
      show ((0 + 2) % 2 ^ 64 : Nat) = 2 from rfl]
  dsimp only
  rw [hr3]
  dsimp only
  rw [comboFold_cons,
      show applyCounts [18446744073709551614, 0] [[0, 0, 0, 0, 1], [0, 0, 0, 1], [1]] [1, 1, 0] = [5, 2] from rfl,
      show evaluateJoltage ⟨[true], [[0, 0, 0, 0, 1], [0, 0, 0, 1], [1]], [5, 2]⟩ [5, 2] = .hit from rfl,
      show ((0 + 2) % 2 ^ 64 : Nat) = 2 from rfl]
  dsimp only
  rw [if_pos (by decide : (2 : Nat) < USIZE_MAX)]
  rw [comboFold_cons,
      show applyCounts [18446744073709551614, 0] [[0, 0, 0, 0, 1], [0, 0, 0, 1], [1]] [2, 0, 0] = [6, 2] from rfl,
      show evaluateJoltage ⟨[true], [[0, 0, 0, 0, 1], [0, 0, 0, 1], [1]], [5, 2]⟩ [6, 2] = .invalid from rfl,
      show ((0 + 2) % 2 ^ 64 : Nat) = 2 from rfl]
  dsimp only
  rfl

/-- C2 (corrected): when the machine's numbers are small enough that the
search's `usize` arithmetic cannot wrap, an `Ok n` from `best_joltage` comes
with an assignment of press counts summing to `n` whose accumulated vector
matches the target exactly — each press adding 1 at a position per occurrence
of that position in the button's index list.  Without the bound the claim is
false of the program: the counterexample's wrapped run returns `Ok 7` on a
machine with no solution at all. -/
theorem claim2_best_joltage_sound (m : Machine) (n : Nat) (J L : Nat)
    (hJ : ∀ pos < m.joltage.length, m.joltage.getD pos 0 ≤ J)
    (hL : ∀ b ∈ m.buttons, b.length ≤ L)
    (hbound : m.buttons.length * (J * (L + 1)) < 2 ^ 64)
    (h : bestJoltage m = .ok n) :
    ∃ cs, cs.length = m.buttons.length ∧
      (∀ pos < m.joltage.length, addVec m.buttons cs pos = m.joltage.getD pos 0) ∧
      cs.sum = n := by
  have e1 : J * (L + 1) = J * L + J := by ring
  have h1 : m.buttons.length * (J * L) < 2 ^ 64 := by
    have h3 : m.buttons.length * (J * L) ≤ m.buttons.length * (J * (L + 1)) :=
      Nat.mul_le_mul (Nat.le_refl _) (by rw [e1]; omega)
    omega
  have h2 : m.buttons.length * J < 2 ^ 64 := by
    have h3 : m.buttons.length * J ≤ m.buttons.length * (J * (L + 1)) :=
      Nat.mul_le_mul (Nat.le_refl _) (by rw [e1]; omega)
    omega
  rw [bestJoltage_eq_U m J L hJ hL h1 h2] at h
  have hsome := bestJoltageU_some m n h
  have hlen : (List.replicate m.joltage.length 0).length = m.joltage.length :=
    List.length_replicate _ _
  obtain ⟨S1, -, -⟩ := searchJoltageU_spec m.buttons m
    (List.replicate m.joltage.length 0) 0 USIZE_MAX hlen
  obtain ⟨⟨t, ⟨cs, ⟨hcl, hsol⟩, hsum⟩, hnt⟩, -⟩ := S1 n hsome
  refine ⟨cs, hcl, fun pos hpos => ?_, by omega⟩
  have hq := hsol pos hpos
  rw [getD_replicate_zero, Nat.zero_add] at hq
  exact hq

theorem claim2_witness :
    ∃ cs : List Nat, cs.length = (⟨[true], [[0]], [3]⟩ : Machine).buttons.length ∧
      (∀ pos < (⟨[true], [[0]], [3]⟩ : Machine).joltage.length,
        addVec (⟨[true], [[0]], [3]⟩ : Machine).buttons cs pos
          = (⟨[true], [[0]], [3]⟩ : Machine).joltage.getD pos 0) ∧
      cs.sum = 3 :=
  claim2_best_joltage_sound ⟨[true], [[0]], [3]⟩ 3 3 1 (by decide) (by decide)
    (by decide) bestJoltage_single3_eval

theorem claim2_counterexample :
    bestJoltage ⟨[true], [[0, 2], [1, 2], [2]], [5, 18446744073709551613, 7]⟩
      = .ok 7 ∧
    ∀ cs, ¬ SpecIsSol
      ⟨[true], [[0, 2], [1, 2], [2]], [5, 18446744073709551613, 7]⟩ cs := by
  refine ⟨bestJoltage_wrap_eval, ?_⟩
  rintro cs ⟨hlen, hsol⟩
  simp only [List.length_cons, List.length_nil] at hlen
  cases cs with
  | nil => simp at hlen
  | cons c0 cs1 =>
    cases cs1 with
    | nil => simp at hlen
    | cons c1 cs2 =>
      cases cs2 with
      | nil => simp at hlen
      | cons c2 cs3 =>
        cases cs3 with
        | cons d cs4 => simp at hlen
        | nil =>
          have h0 := hsol 0 (by decide)
          have h1 := hsol 1 (by decide)
          have h2 := hsol 2 (by decide)
          simp [specAddVec] at h0 h1 h2
          omega

/-- C8 (corrected): a state whose accumulator strictly exceeds the target at
some position is classified `Invalid` by `evaluate_joltage` and extends to no
exact solution; provided the machine's numbers are small enough for the
`usize` arithmetic never to wrap, `search_joltage` started there returns no
press count.  Without that bound the claim is false of the release build:
the counterexample's wrapped accumulator lands back on the target and the
search returns `Some 2` from an overshot state. -/
theorem claim8_overshoot (m : Machine) (cur : List Nat) (bs : List Button)
    (p least : Nat) (hcur : cur.length = m.joltage.length)
    (J L : Nat)
    (hJ : ∀ pos < m.joltage.length, m.joltage.getD pos 0 ≤ J)
    (hL : ∀ b ∈ bs, b.length ≤ L)
    (hW : bs.length * (J * L) < 2 ^ 64)
    (hcurB : ∀ pos < cur.length, cur.getD pos 0 + bs.length * (J * L) < 2 ^ 64)
    (hp : p + bs.length * J < 2 ^ 64)
    (hover : ∃ pos < m.joltage.length, m.joltage.getD pos 0 < cur.getD pos 0) :
    evaluateJoltage m cur = .invalid ∧
    extTotals m cur bs = ∅ ∧
    (searchJoltage m cur bs p least).1 = none := by
  have hinv : evaluateJoltage m cur = .invalid :=
    (evaluateJoltage_invalid_iff m cur).mpr hover
  have hemp := extTotals_empty_of_invalid m cur bs hinv
  refine ⟨hinv, hemp, ?_⟩
  have hcur' : ∀ pos, cur.getD pos 0 + bs.length * (J * L) < 2 ^ 64 := by
    intro pos
    by_cases hx : pos < cur.length
    · exact hcurB pos hx
    · rw [List.getD_eq_default _ _ (le_of_not_lt hx)]
      omega
  rw [searchJoltage_eq_U bs m cur p least J L hJ hL hcur' hp]
  obtain ⟨S1, -, -⟩ := searchJoltageU_spec bs m cur p least hcur
  cases hx : (searchJoltageU m cur bs p least).1 with
  | none => rfl
  | some r =>
    exfalso
    obtain ⟨⟨t, ht, -⟩, -⟩ := S1 r hx
    rw [hemp] at ht
    exact ht

theorem claim8_witness :
    evaluateJoltage ⟨[true], [[0]], [1]⟩ [2] = .invalid ∧
    (searchJoltage ⟨[true], [[0]], [1]⟩ [2] [[0]] 0 USIZE_MAX).1 = none :=
  ⟨(claim8_overshoot ⟨[true], [[0]], [1]⟩ [2] [[0]] 0 USIZE_MAX rfl 1 1
      (by decide) (by decide) (by decide) (by decide) (by decide)
      ⟨0, by decide, by decide⟩).1,
   (claim8_overshoot ⟨[true], [[0]], [1]⟩ [2] [[0]] 0 USIZE_MAX rfl 1 1
      (by decide) (by decide) (by decide) (by decide) (by decide)
      ⟨0, by decide, by decide⟩).2.2⟩

theorem claim8_counterexample :
    evaluateJoltage ⟨[true], [[0, 0, 0, 0, 1], [0, 0, 0, 1], [1]], [5, 2]⟩
      [18446744073709551614, 0] = .invalid ∧
    (searchJoltage ⟨[true], [[0, 0, 0, 0, 1], [0, 0, 0, 1], [1]], [5, 2]⟩
      [18446744073709551614, 0] [[0, 0, 0, 0, 1], [0, 0, 0, 1], [1]] 0
      USIZE_MAX).1 = some 2 :=
  ⟨rfl, searchJoltage_overshoot_eval⟩

end Day10
